import Mathlib

/-!
# Verification of the pacsam_optimization route-inspection core

Shallow embedding of `src/src/lib.rs` (Chinese-Postman pipeline: parse,
fix dead ends, eulerize, Euler circuit via Hierholzer, formatting) together
with proofs and refutations of the specification's claims.

The third-party graph container (`graph_builder::UndirectedALGraph`) is not
part of this repository; it is modelled from the spec's GraphModel contract
(spec §3): a multiset of undirected weighted edges kept in insertion order,
`neighbors` enumerating, for every stored edge incident to a node, the other
endpoint with the edge weight, `degree` the length of that enumeration, the
node count being one more than the largest endpoint, and
`add_edge_with_value` appending an edge.  Rust `usize` arithmetic is
modelled on `Nat` with explicit wrap-around `% 2 ^ 64` where the source can
overflow; fallible code (`unwrap` / `expect` / out-of-range indexing)
returns `Option`.
-/

namespace Pacsam

/-- An undirected weighted edge `(u, v, weight)`, as the Rust code stores it
(`Vec<(usize, usize, usize)>` handed to `GraphBuilder::edges_with_values`). -/
abbrev E3 := Nat × Nat × Nat

/-- The graph model (spec §3): a node count derived from the edges and a
multiset of edges exposed through adjacency queries.  We keep the edge list
in insertion order. -/
structure Graph where
  edges : List E3
deriving DecidableEq

/-- `node_count`: one more than the largest endpoint mentioned by an edge
(dense indices `0..n`, spec §3). -/
def Graph.nodeCount (g : Graph) : Nat :=
  g.edges.foldr (fun e m => max m (max e.1 e.2.1 + 1)) 0

/-- `neighbors_with_values v`: for every stored edge incident to `v` (in
storage order) the opposite endpoint together with the edge weight.  A self
loop is listed from both of its endpoint slots. -/
def Graph.neighbors (g : Graph) (v : Nat) : List (Nat × Nat) :=
  g.edges.flatMap fun e =>
    (if e.1 = v then [(e.2.1, e.2.2)] else []) ++
    (if e.2.1 = v then [(e.1, e.2.2)] else [])

/-- `degree v`: the number of edge occurrences incident to `v` (spec §3). -/
def Graph.degree (g : Graph) (v : Nat) : Nat :=
  (g.neighbors v).length

/-- `add_edge_with_value`: append one edge. -/
def Graph.addEdge (g : Graph) (u v w : Nat) : Graph :=
  ⟨g.edges ++ [(u, v, w)]⟩

/-! ## Walks, reachability and shortest distances (specification side) -/

/-- There is a stored edge joining `a` and `b` of weight `w` (in either
stored orientation). -/
def linksTo (g : Graph) (a b w : Nat) : Prop :=
  (a, b, w) ∈ g.edges ∨ (b, a, w) ∈ g.edges

instance (g : Graph) (a b w : Nat) : Decidable (linksTo g a b w) := by
  unfold linksTo; infer_instance

/-- A walk from `u` described by its successive steps `(next node, weight of
the edge used)`. -/
def IsWalk (g : Graph) : Nat → List (Nat × Nat) → Prop
  | _, [] => True
  | u, (v, w) :: rest => linksTo g u v w ∧ IsWalk g v rest

/-- Final node of a walk from `u`. -/
def walkEnd : Nat → List (Nat × Nat) → Nat
  | u, [] => u
  | _, (v, _) :: rest => walkEnd v rest

/-- Total weight of a walk. -/
def walkWeight (steps : List (Nat × Nat)) : Nat :=
  (steps.map Prod.snd).sum

/-- `steps` is a walk in `g` from `u` to `v`. -/
def WalkFrom (g : Graph) (u v : Nat) (steps : List (Nat × Nat)) : Prop :=
  IsWalk g u steps ∧ walkEnd u steps = v

/-- `v` can be reached from `u` along edges of `g`. -/
def Reachable (g : Graph) (u v : Nat) : Prop :=
  ∃ steps, WalkFrom g u v steps

/-- `d` is attained by a walk from `u` to `v` and no walk is lighter. -/
def IsShortestDist (g : Graph) (u v d : Nat) : Prop :=
  (∃ steps, WalkFrom g u v steps ∧ walkWeight steps = d) ∧
    ∀ steps, WalkFrom g u v steps → d ≤ walkWeight steps

/-- The graph is connected: every node index below the node count is
reachable from node 0 (the circuit's fixed start node, spec §4.5). -/
def Connected (g : Graph) : Prop :=
  ∀ v < g.nodeCount, Reachable g 0 v

/-- Sum of all stored edge weights. -/
def totalWeight (g : Graph) : Nat :=
  (g.edges.map fun e => e.2.2).sum

/-! ## List utilities mirroring the Rust vector operations -/

/-- Rust `Vec::swap_remove i`: overwrite slot `i` with the last element and
pop the last slot.  (The source never calls it out of range.) -/
def swapRemove {α : Type _} (l : List α) (i : Nat) : List α :=
  match l.getLast? with
  | none => []
  | some a => (l.set i a).dropLast

/-! ## GraphParser (`build_graph`) -/

/-- Rust `str::split` on a one-character separator. -/
def splitOnChar (sep : Char) : List Char → List (List Char)
  | [] => [[]]
  | c :: cs =>
    let r := splitOnChar sep cs
    if c = sep then [] :: r
    else
      match r with
      | [] => [[c]]
      | h :: t => (c :: h) :: t

/-- Strip one trailing carriage return; Rust `str::lines` does this to each
`'\n'`-terminated line (a `"\r\n"` terminator is removed as a whole). -/
def stripCR (l : List Char) : List Char :=
  if l.getLast? = some '\r' then l.dropLast else l

/-- Finish Rust `str::lines` on the `'\n'`-split pieces: every piece that
was `'\n'`-terminated (all but the last) has one trailing `'\r'` stripped;
the final piece — the text after the last `'\n'` — is dropped when empty
and otherwise kept verbatim, because Rust keeps a bare trailing carriage
return on an unterminated final line. -/
def linesFinish : List (List Char) → List (List Char)
  | [] => []
  | [l] => if l = [] then [] else [l]
  | l :: ls => stripCR l :: linesFinish ls

/-- Rust `str::lines`: split on `'\n'`, strip one `'\r'` before each
`'\n'`, drop the empty piece a trailing `'\n'` produces, and keep a bare
trailing `'\r'` on an unterminated final line. -/
def rustLines (s : String) : List (List Char) :=
  linesFinish (splitOnChar '\n' s.data)

/-- One step of Rust `usize::from_str`'s digit accumulation. -/
def parseDigitsLoop : List Char → Nat → Option Nat
  | [], acc => some acc
  | c :: t, acc => if c.isDigit then parseDigitsLoop t (acc * 10 + (c.toNat - 48)) else none

/-- Rust `str::parse::<usize>`: optional leading `'+'`, then one or more
ASCII digits, value below `2 ^ 64` (larger values report overflow). -/
def parseUsize (cs : List Char) : Option Nat :=
  let ds := match cs with | '+' :: rest => rest | _ => cs
  match ds with
  | [] => none
  | _ :: _ =>
    match parseDigitsLoop ds 0 with
    | some v => if v < 2 ^ 64 then some v else none
    | none => none

/-- Inner token loop of `build_graph`: split each comma token on `':'`; a
token in one piece is skipped; otherwise parse the first two pieces and push
`(line, vertex, weight)`; a parse failure aborts (`unwrap` panic). -/
def buildLine (i : Nat) : List (List Char) → List E3 → Option (List E3)
  | [], acc => some acc
  | tok :: rest, acc =>
    match splitOnChar ':' tok with
    | [_] => buildLine i rest acc
    | x :: y :: _ =>
      match parseUsize x, parseUsize y with
      | some v, some w => buildLine i rest (acc ++ [(i, v, w)])
      | _, _ => none
    | [] => buildLine i rest acc

/-- Outer line loop of `build_graph`, threading the line counter. -/
def buildLoop : List (List Char) → Nat → List E3 → Option (List E3)
  | [], _, acc => some acc
  | l :: ls, i, acc =>
    match buildLine i (splitOnChar ',' l) acc with
    | some acc2 => buildLoop ls (i + 1) acc2
    | none => none

/-- `build_graph`: parse the input file into the graph; `none` models the
`unwrap` panic on a numeric parse failure (no partial graph escapes). -/
def build_graph (input : String) : Option Graph :=
  (buildLoop (rustLines input) 0 []).map Graph.mk

/-! ## DegreeAugmenter (`fix_culdesacs`) -/

/-- The degree-1 nodes collected before any edge is added. -/
def culdesacNodes (g : Graph) : List Nat :=
  (List.range g.nodeCount).filter fun i => g.degree i = 1

/-- Duplicate, for each collected dead end, its first listed incident edge
(`none` models the `expect` on a missing neighbor). -/
def fixLoop : List Nat → Graph → Option Graph
  | [], g => some g
  | v :: vs, g =>
    match (g.neighbors v).head? with
    | some (t, w) => fixLoop vs (g.addEdge v t w)
    | none => none

/-- `fix_culdesacs`. -/
def fix_culdesacs (g : Graph) : Option Graph :=
  fixLoop (culdesacNodes g) g

/-! ## ShortestPathEngine (`dijkstra`) -/

/-- `usize::MAX`, the "infinity" sentinel. -/
def UMAX : Nat := 2 ^ 64 - 1

/-- Relax one neighbor entry: update the first unvisited entry for node `t`
if the candidate distance beats it; `none` when `t` is already visited. -/
def relaxOne (t cand : Nat) : List (Nat × Nat) → Option (List (Nat × Nat))
  | [] => none
  | (i, d) :: rest =>
    if i = t then some (if cand < d then (i, cand) :: rest else (i, d) :: rest)
    else (relaxOne t cand rest).map ((i, d) :: ·)

/-- Relax every neighbor of the current node.  The Rust sum
`neighbor.value + cumulative_dist` lives in `usize`: we compute it modulo
`2 ^ 64` and record in the boolean whether any computed sum overflowed. -/
def relaxAll (cum : Nat) : List (Nat × Nat) → List (Nat × Nat) → Bool →
    List (Nat × Nat) × Bool
  | [], unv, ovf => (unv, ovf)
  | (t, w) :: ns, unv, ovf =>
    match relaxOne t ((w + cum) % 2 ^ 64) unv with
    | some unv2 => relaxAll cum ns unv2 (ovf || decide (2 ^ 64 ≤ w + cum))
    | none => relaxAll cum ns unv ovf

/-- `iter().find(|u| u.idx == c)`: first entry for node `c`. -/
def findEntry? (c : Nat) : List (Nat × Nat) → Option (Nat × Nat)
  | [] => none
  | q :: rest => if q.1 = c then some q else findEntry? c rest

/-- `iter().position(|u| u.idx == c)`: index of the first entry for `c`. -/
def position? (c : Nat) : List (Nat × Nat) → Option Nat
  | [] => none
  | q :: rest => if q.1 = c then some 0 else (position? c rest).map (· + 1)

/-- Rust `Iterator::min` over `Vertex` (ordered by distance only, first
minimal element wins), as a left fold. -/
def minFold : (Nat × Nat) → List (Nat × Nat) → (Nat × Nat)
  | acc, [] => acc
  | acc, y :: ys => minFold (if y.2 < acc.2 then y else acc) ys

/-- `unvisited.iter().min()`. -/
def minEntry : List (Nat × Nat) → Option (Nat × Nat)
  | [] => none
  | x :: xs => some (minFold x xs)

/-- The `while !unvisited.is_empty()` loop of `dijkstra`, with fuel (one
unit per removed entry); `none` models the `expect("ok")` panics. -/
def dijkstraLoop (g : Graph) :
    Nat → List (Nat × Nat) → List (Nat × Nat) → Nat → Bool →
    Option (List (Nat × Nat) × Bool)
  | 0, unv, tree, _, ovf => if unv = [] then some (tree, ovf) else none
  | fuel + 1, unv, tree, current, ovf =>
    if unv = [] then some (tree, ovf)
    else
      match findEntry? current unv with
      | none => none
      | some cu =>
        let res := relaxAll cu.2 (g.neighbors current) unv ovf
        match position? current res.1 with
        | none => none
        | some j =>
          match res.1.get? j with
          | none => none
          | some entry =>
            let unv3 := swapRemove res.1 j
            let current2 := match minEntry unv3 with
              | some m => m.1
              | none => current
            dijkstraLoop g fuel unv3 (tree ++ [entry]) current2 res.2

/-- `dijkstra`: the shortest-path tree as the list of `(idx, distance)`
pairs in visit order, plus the flag recording whether any relaxation sum
overflowed `usize`. -/
def dijkstra (g : Graph) (initial : Nat) : Option (List (Nat × Nat) × Bool) :=
  let unv0 := (List.range g.nodeCount).map fun i => (i, UMAX)
  match position? initial unv0 with
  | none => none
  | some j =>
    let unv1 := unv0.set j (initial, 0)
    dijkstraLoop g unv1.length unv1 [] initial false

/-! ## Eulerizer (`eulerize`) -/

/-- Inner loop building `new_edges` from one trimmed shortest-path tree:
skip the tree's own root, look up the partner's position among the odd
nodes (`none` models the `expect`), dedupe on the swapped triple, push. -/
def newEdgesInner (odd : List Nat) (newI : Nat) :
    List (Nat × Nat) → List E3 → Option (List E3)
  | [], acc => some acc
  | (idx, dist) :: rest, acc =>
    if odd.getD newI 0 = idx then newEdgesInner odd newI rest acc
    else
      match odd.findIdx? fun node => node = idx with
      | none => none
      | some newJ =>
        let acc2 := if (newJ, newI, dist) ∈ acc then acc else acc ++ [(newI, newJ, dist)]
        newEdgesInner odd newI rest acc2

/-- Outer loop over the enumerated trimmed shortest-path trees. -/
def newEdgesLoop (odd : List Nat) :
    List (Nat × List (Nat × Nat)) → List E3 → Option (List E3)
  | [], acc => some acc
  | (newI, tree) :: rest, acc =>
    match newEdgesInner odd newI tree acc with
    | some acc2 => newEdgesLoop odd rest acc2
    | none => none

/-- `eulerize`: collect the odd-degree nodes; if none, return.  Otherwise
run `dijkstra` from each, keep only distances between odd nodes, assemble
the complete matching graph's edge list and build it into the local
`graph2` — which the source then drops.  The borrowed input graph is never
mutated, so the function's effect on the graph is the identity; `none`
models the internal `expect` panics. -/
def eulerize (g : Graph) : Option Graph :=
  let odd := (List.range g.nodeCount).filter fun i => g.degree i % 2 ≠ 0
  if odd = [] then some g
  else
    match odd.mapM fun v => (dijkstra g v).map Prod.fst with
    | none => none
    | some trees =>
      let trimmed := trees.map fun tree => tree.filter fun vx => vx.1 ∈ odd
      match newEdgesLoop odd trimmed.enum [] with
      | none => none
      | some newEdges =>
        let _graph2 : Graph := ⟨newEdges⟩
        some g

/-! ## CircuitExtractor (`find_cycle`) -/

/-- Inner loop of the edge collection: push `(i, target)` for each listed
neighbor unless the swapped pair was already pushed. -/
def collectInner (i : Nat) : List (Nat × Nat) → List (Nat × Nat) → List (Nat × Nat)
  | [], acc => acc
  | (t, _) :: ns, acc => collectInner i ns (if (t, i) ∈ acc then acc else acc ++ [(i, t)])

/-- Outer loop of the edge collection over all node indices. -/
def collectLoop (g : Graph) : List Nat → List (Nat × Nat) → List (Nat × Nat)
  | [], acc => acc
  | i :: is, acc => collectLoop g is (collectInner i (g.neighbors i) acc)

/-- "get a vec of all edges, represented once each". -/
def collectEdges (g : Graph) : List (Nat × Nat) :=
  collectLoop g (List.range g.nodeCount) []

/-- Hierholzer loop: the frontier stack is grown across the first incident
edge of its front node, or the front node is finalized onto the path.  One
fuel unit per iteration (each iteration removes an edge or pops the stack,
so `2 * edges + stack` bounds the iteration count). -/
def hierLoop : Nat → List (Nat × Nat) → List Nat → List Nat → List Nat
  | 0, _, _, path => path
  | fuel + 1, edges, stack, path =>
    match stack with
    | [] => path
    | v :: rest =>
      match edges.filter fun e => decide (e.1 = v) || decide (e.2 = v) with
      | [] => hierLoop fuel edges rest (path ++ [v])
      | chosen :: _ =>
        let j := edges.findIdx fun e => e == chosen
        let edges2 := swapRemove edges j
        let next := if chosen.1 = v then chosen.2 else chosen.1
        hierLoop fuel edges2 (next :: v :: rest) path

/-- `find_cycle`. -/
def find_cycle (g : Graph) : List Nat :=
  let edges := collectEdges g
  hierLoop (2 * edges.length + 1) edges [0] []

/-! ## PathFormatter (`alphabetize`) -/

/-- The letter table of `alphabetize`. -/
def alphabet : List String :=
  ["A", "B", "C", "D", "E", "F", "G", "H", "I", "J", "K", "L", "M", "N", "O",
   "P", "Q", "R", "S", "T", "U", "V", "W", "X", "Y", "Z"]

/-- The enumerated loop of `alphabetize` (`none` models the out-of-range
indexing panic for node indices past `'Z'`). -/
def alphaLoop (n : Nat) : List (Nat × Nat) → String → Option String
  | [], acc => some acc
  | (i, node) :: rest, acc =>
    match alphabet.get? node with
    | none => none
    | some s => alphaLoop n rest (acc ++ s ++ if i < n - 1 then " -- " else "")

/-- `alphabetize`. -/
def alphabetize (path : List Nat) : Option String :=
  alphaLoop path.length path.enum ""

/-! ## `run` -/

/-- `run`, given the file contents (the file read is the caller's I/O): the
source parses, fixes dead ends, eulerizes — and then returns `Ok(())`; the
circuit-extraction and formatting calls are commented out. -/
def run (contents : String) : Option Unit := do
  let g ← build_graph contents
  let g1 ← fix_culdesacs g
  let _ ← eulerize g1
  some ()

/-! ## Generic facts about the model -/

instance instDecIsWalk (g : Graph) : (u : Nat) → (steps : List (Nat × Nat)) →
    Decidable (IsWalk g u steps)
  | _, [] => isTrue trivial
  | u, (v, w) :: rest =>
    have : Decidable (IsWalk g v rest) := instDecIsWalk g v rest
    inferInstanceAs (Decidable (linksTo g u v w ∧ IsWalk g v rest))

instance (g : Graph) (u v : Nat) (steps : List (Nat × Nat)) :
    Decidable (WalkFrom g u v steps) :=
  inferInstanceAs (Decidable (IsWalk g u steps ∧ walkEnd u steps = v))

/-! ## C9: `alphabetize` -/

/-- The specified join: letters separated by `" -- "`. -/
def joinDashes : List String → String
  | [] => ""
  | [s] => s
  | s :: rest => s ++ " -- " ++ joinDashes rest

lemma alphabet_get? {x : Nat} (h : x < 26) :
    alphabet[x]? = some (alphabet.getD x "") := by
  have hlen : x < alphabet.length := h
  rw [List.getElem?_eq_getElem hlen, List.getD_eq_getElem?_getD,
    List.getElem?_eq_getElem hlen]
  rfl

lemma alphaLoop_step (n i node : Nat) (rest : List (Nat × Nat)) (acc s : String)
    (hs : alphabet[node]? = some s) :
    alphaLoop n ((i, node) :: rest) acc =
      alphaLoop n rest (acc ++ s ++ if i < n - 1 then " -- " else "") := by
  have hs' : alphabet.get? node = some s := by rw [List.get?_eq_getElem?]; exact hs
  conv_lhs => rw [alphaLoop.eq_def]
  simp only [hs']

lemma alphaLoop_spec (n : Nat) :
    ∀ (l : List Nat) (k : Nat) (acc : String), k + l.length = n →
      (∀ x ∈ l, x < 26) →
      alphaLoop n (l.enumFrom k) acc =
        some (acc ++ joinDashes (l.map fun i => alphabet.getD i ""))
  | [], k, acc, _, _ => by simp [alphaLoop, joinDashes]
  | [x], k, acc, hk, hx => by
    have h26 : x < 26 := hx x (by simp)
    have hk' : k + 1 = n := by simpa using hk
    have hkn : ¬ (k < n - 1) := by omega
    rw [List.enumFrom, List.enumFrom,
      alphaLoop_step n k x [] acc _ (alphabet_get? h26), if_neg hkn]
    simp [alphaLoop, joinDashes]
  | x :: y :: rest, k, acc, hk, hx => by
    have h26 : x < 26 := hx x (by simp)
    have hk' : k + (rest.length + 2) = n := by simpa using hk
    have hkn : k < n - 1 := by omega
    have ih := alphaLoop_spec n (y :: rest) (k + 1) (acc ++ alphabet.getD x "" ++ " -- ")
      (by simpa using by omega) (fun z hz => hx z (by simp at hz ⊢; tauto))
    rw [List.enumFrom, alphaLoop_step n k x _ acc _ (alphabet_get? h26), if_pos hkn, ih]
    simp [joinDashes, String.append_assoc]

/-- C9: for a path of node indices below 26, `alphabetize` is the letters of
the nodes (0 ↦ "A", 1 ↦ "B", …) joined by `" -- "`. -/
theorem alphabetize_spec (path : List Nat) (h : ∀ x ∈ path, x < 26) :
    alphabetize path = some (joinDashes (path.map fun i => alphabet.getD i "")) := by
  have := alphaLoop_spec path.length path 0 "" (by omega) h
  simpa [alphabetize, List.enum] using this

/-- C9 witness: the spec's own example. -/
theorem alphabetize_spec_witness :
    (∀ x ∈ [0, 1, 2], x < 26) ∧ alphabetize [0, 1, 2] = some "A -- B -- C" := by
  refine ⟨by decide, ?_⟩
  rw [alphabetize_spec [0, 1, 2] (by decide)]
  decide

/-! ## C1: `eulerize` never touches the original graph -/

/-- A path graph 0 – 1 – 2 (nodes 0 and 2 have odd degree): the input
`"1:1\n2:1"` parses to it. -/
def gOddPath : Graph := ⟨[(0, 1, 1), (1, 2, 1)]⟩

/-- C1 (code bug, evaluated at the failing input): `gOddPath` is connected
with an edge, yet `eulerize` returns it unchanged — the duplicated edges
went into the discarded local `graph2` — so node 0 still has odd degree. -/
theorem eulerize_leaves_odd_node :
    build_graph "1:1\n2:1" = some gOddPath ∧
    Connected gOddPath ∧ 1 ≤ gOddPath.edges.length ∧
    eulerize gOddPath = some gOddPath ∧
    ¬ (∀ v < gOddPath.nodeCount, Even (gOddPath.degree v)) := by
  refine ⟨by decide, ?_, by decide, by decide, ?_⟩
  · intro v hv
    have h3 : gOddPath.nodeCount = 3 := by decide
    rw [h3] at hv
    interval_cases v
    · exact ⟨[], trivial, rfl⟩
    · exact ⟨[(1, 1)], ⟨Or.inl (by decide), trivial⟩, rfl⟩
    · exact ⟨[(1, 1), (2, 1)], ⟨Or.inl (by decide), Or.inl (by decide), trivial⟩, rfl⟩
  · intro hall
    have := hall 0 (by decide)
    revert this
    decide

/-! ## C2: `run` stops after `eulerize` -/

/-- C2 (code bug, evaluated at the failing input): on the spec §8 square
graph the pipeline returns bare `()` — circuit extraction and formatting
are commented out of `run`, so no circuit, no alphabetized string and no
mileage are produced. -/
theorem run_produces_no_results :
    run "1:10,3:15\n2:10\n3:10\n" = some () := by decide

/-! ## C6: the handshake invariant along the pipeline -/

/-- Number of odd-degree nodes. -/
def oddDegreeCount (g : Graph) : Nat :=
  ((Finset.range g.nodeCount).filter fun v => g.degree v % 2 = 1).card

lemma nodeCount_cons (e : E3) (E : List E3) :
    (⟨e :: E⟩ : Graph).nodeCount = max (⟨E⟩ : Graph).nodeCount (max e.1 e.2.1 + 1) := rfl

lemma degree_mk_cons (e : E3) (E : List E3) (v : Nat) :
    (⟨e :: E⟩ : Graph).degree v =
      ((if e.1 = v then 1 else 0) + (if e.2.1 = v then 1 else 0)) +
        (⟨E⟩ : Graph).degree v := by
  simp [Graph.degree, Graph.neighbors, apply_ite List.length]
  omega

lemma endpoint_lt_nodeCount (g : Graph) :
    ∀ e ∈ g.edges, e.1 < g.nodeCount ∧ e.2.1 < g.nodeCount := by
  obtain ⟨E⟩ := g
  induction E with
  | nil => simp
  | cons e E ih =>
    intro e' he'
    rcases List.mem_cons.1 he' with h | h
    · subst h; rw [nodeCount_cons]; omega
    · have := ih e' h
      rw [nodeCount_cons]
      omega

lemma sum_degree (E : List E3) (n : Nat) (h : ∀ e ∈ E, e.1 < n ∧ e.2.1 < n) :
    ∑ v in Finset.range n, (⟨E⟩ : Graph).degree v = 2 * E.length := by
  induction E with
  | nil => simp [Graph.degree, Graph.neighbors]
  | cons e E ih =>
    have he := h e (by simp)
    simp only [degree_mk_cons, Finset.sum_add_distrib]
    rw [ih fun x hx => h x (List.mem_cons_of_mem _ hx)]
    rw [Finset.sum_ite_eq (Finset.range n) e.1 fun _ => 1,
      Finset.sum_ite_eq (Finset.range n) e.2.1 fun _ => 1]
    simp only [Finset.mem_range, he.1, he.2, if_pos]
    simp [List.length_cons]
    ring

/-- Handshake lemma for the graph model: the count of odd-degree nodes is
even for every graph. -/
lemma handshake_even (g : Graph) : Even (oddDegreeCount g) := by
  obtain ⟨E⟩ := g
  have hsum := sum_degree E (⟨E⟩ : Graph).nodeCount (endpoint_lt_nodeCount ⟨E⟩)
  have hcard : oddDegreeCount ⟨E⟩ =
      ∑ v in Finset.range (⟨E⟩ : Graph).nodeCount, (⟨E⟩ : Graph).degree v % 2 := by
    rw [oddDegreeCount, Finset.card_filter]
    refine Finset.sum_congr rfl fun v _ => ?_
    by_cases hv : (⟨E⟩ : Graph).degree v % 2 = 1
    · simp [hv]
    · simp only [hv, if_false]
      omega
  rw [Nat.even_iff, hcard, ← Finset.sum_nat_mod, hsum]
  omega

/-- C6: at every pipeline-reachable graph state — after parsing, after
`fix_culdesacs`, after `eulerize` — the number of odd-degree nodes is even
(the handshake lemma is preserved by every graph-mutating operation). -/
theorem handshake_along_pipeline (input : String) (g : Graph)
    (_hparse : build_graph input = some g) :
    Even (oddDegreeCount g) ∧
    (∀ g1, fix_culdesacs g = some g1 → Even (oddDegreeCount g1)) ∧
    (∀ g1 g2, fix_culdesacs g = some g1 → eulerize g1 = some g2 →
      Even (oddDegreeCount g2)) :=
  ⟨handshake_even g, fun g1 _ => handshake_even g1, fun _ g2 _ _ => handshake_even g2⟩

/-- C6 witness: a concrete parse. -/
theorem handshake_along_pipeline_witness :
    build_graph "1:1\n2:1" = some gOddPath ∧ Even (oddDegreeCount gOddPath) :=
  ⟨by decide, (handshake_along_pipeline "1:1\n2:1" gOddPath (by decide)).1⟩

/-! ## C5: `fix_culdesacs` -/

/-- First listed neighbor of `v` — for a dead end, its single incident
edge's other endpoint and weight. -/
def firstNb (g : Graph) (v : Nat) : Nat × Nat := (g.neighbors v).headD (0, 0)

/-- The duplicates `fix_culdesacs` appends, one per collected dead end. -/
def dupEdges (g : Graph) : List E3 :=
  (culdesacNodes g).map fun v => (v, (firstNb g v).1, (firstNb g v).2)

lemma neighbors_append (E F : List E3) (v : Nat) :
    (⟨E ++ F⟩ : Graph).neighbors v =
      (⟨E⟩ : Graph).neighbors v ++ (⟨F⟩ : Graph).neighbors v := by
  simp [Graph.neighbors]

lemma degree_append (E F : List E3) (v : Nat) :
    (⟨E ++ F⟩ : Graph).degree v = (⟨E⟩ : Graph).degree v + (⟨F⟩ : Graph).degree v := by
  simp [Graph.degree, neighbors_append]

lemma mem_neighbors_iff (g : Graph) (v t w : Nat) :
    (t, w) ∈ g.neighbors v ↔ linksTo g v t w := by
  simp only [Graph.neighbors, List.mem_flatMap, linksTo]
  constructor
  · rintro ⟨⟨a, b, c⟩, he, hm⟩
    simp only [List.mem_append] at hm
    rcases hm with hm | hm
    · by_cases h1 : a = v
      · simp only [h1, if_pos, List.mem_singleton] at hm
        obtain ⟨rfl, rfl⟩ := Prod.mk.injEq .. ▸ hm
        subst h1; exact Or.inl he
      · simp [h1] at hm
    · by_cases h2 : b = v
      · simp only [h2, if_pos, List.mem_singleton] at hm
        obtain ⟨rfl, rfl⟩ := Prod.mk.injEq .. ▸ hm
        subst h2; exact Or.inr he
      · simp [h2] at hm
  · rintro (h | h)
    · exact ⟨(v, t, w), h, List.mem_append.2 (Or.inl (by simp))⟩
    · exact ⟨(t, v, w), h, List.mem_append.2 (Or.inr (by simp))⟩

lemma linksTo_symm {g : Graph} {a b w : Nat} (h : linksTo g a b w) : linksTo g b a w :=
  h.symm

lemma degree_mk (E : List E3) (v : Nat) :
    (⟨E⟩ : Graph).degree v =
      (E.map fun e => (if e.1 = v then 1 else 0) + (if e.2.1 = v then 1 else 0)).sum := by
  induction E with
  | nil => simp [Graph.degree, Graph.neighbors]
  | cons e E ih => rw [degree_mk_cons, ih]; simp

lemma two_le_degree_of_selfloop (g : Graph) (v w : Nat) (h : (v, v, w) ∈ g.edges) :
    2 ≤ g.degree v := by
  obtain ⟨E⟩ := g
  rw [degree_mk]
  have hm : 2 ∈ E.map fun e => (if e.1 = v then 1 else 0) + (if e.2.1 = v then 1 else 0) :=
    List.mem_map.2 ⟨(v, v, w), h, by simp⟩
  exact List.single_le_sum (fun _ _ => Nat.zero_le _) 2 hm

lemma lt_nodeCount_of_linksTo {g : Graph} {v t w : Nat} (h : linksTo g v t w) :
    v < g.nodeCount := by
  rcases h with h | h
  · exact (endpoint_lt_nodeCount g _ h).1
  · exact (endpoint_lt_nodeCount g _ h).2

lemma deadEnd_structure (g : Graph) (v : Nat) (h : g.degree v = 1) :
    g.neighbors v = [firstNb g v] ∧
    linksTo g v (firstNb g v).1 (firstNb g v).2 ∧ (firstNb g v).1 ≠ v := by
  obtain ⟨p, hp⟩ := List.length_eq_one.1 (h : (g.neighbors v).length = 1)
  have hfn : firstNb g v = p := by simp [firstNb, hp]
  have hlink : linksTo g v (firstNb g v).1 (firstNb g v).2 := by
    rw [hfn]
    exact (mem_neighbors_iff g v p.1 p.2).1 (by rw [hp]; simp)
  refine ⟨by rw [hp, hfn], hlink, fun hpv => ?_⟩
  rw [hpv] at hlink
  have hmem : (v, v, (firstNb g v).2) ∈ g.edges := by
    rcases hlink with h' | h' <;> exact h'
  have := two_le_degree_of_selfloop g v _ hmem
  omega

lemma mem_culdesacNodes (g : Graph) (v : Nat) :
    v ∈ culdesacNodes g ↔ g.degree v = 1 ∧ v < g.nodeCount := by
  simp [culdesacNodes, List.mem_filter, and_comm]

/-- Two mutually adjacent dead ends pick each other as first neighbor. -/
lemma firstNb_of_deadEnds (g : Graph) (u v : Nat) (hu : g.degree u = 1)
    (hlink : linksTo g v u ((firstNb g v).2)) : (firstNb g u).1 = v := by
  have hnb : (u, (firstNb g v).2) ∈ g.neighbors v := (mem_neighbors_iff ..).2 hlink
  have hnb' : (v, (firstNb g v).2) ∈ g.neighbors u :=
    (mem_neighbors_iff ..).2 (linksTo_symm hlink)
  rw [(deadEnd_structure g u hu).1, List.mem_singleton] at hnb'
  rw [← hnb']

lemma sum_map_indicator_nodup (l : List Nat) (hnd : l.Nodup) (a : Nat) :
    (l.map fun u => if u = a then 1 else 0).sum = if a ∈ l then 1 else 0 := by
  induction l with
  | nil => simp
  | cons b l ih =>
    rcases List.nodup_cons.1 hnd with ⟨hb, hl⟩
    by_cases hba : b = a
    · subst hba
      simp [hb, ih hl]
    · simp only [List.map_cons, List.sum_cons, if_neg hba, ih hl, List.mem_cons]
      have : ¬ a = b := fun h => hba h.symm
      simp [this]

lemma sum_map_add {α : Type _} (l : List α) (f h : α → Nat) :
    (l.map fun u => f u + h u).sum = (l.map f).sum + (l.map h).sum := by
  induction l with
  | nil => simp
  | cons b l ih => simp [ih]; omega

lemma degree_dupEdges (g : Graph) (v : Nat) (hv : g.degree v = 1) :
    (⟨dupEdges g⟩ : Graph).degree v =
      1 + if g.degree (firstNb g v).1 = 1 then 1 else 0 := by
  obtain ⟨hnbv, hlinkv, hnev⟩ := deadEnd_structure g v hv
  have hnd : (culdesacNodes g).Nodup := (List.nodup_range _).filter _
  have hself : v ∈ culdesacNodes g :=
    (mem_culdesacNodes g v).2 ⟨hv, lt_nodeCount_of_linksTo hlinkv⟩
  rw [degree_mk, dupEdges, List.map_map]
  have hcongr : ∀ u ∈ culdesacNodes g,
      ((fun e : E3 => (if e.1 = v then 1 else 0) + (if e.2.1 = v then 1 else 0)) ∘
        fun u => (u, (firstNb g u).1, (firstNb g u).2)) u =
      (if u = v then 1 else 0) +
        (if u = (firstNb g v).1 ∧ g.degree (firstNb g v).1 = 1 then 1 else 0) := by
    intro u hmem
    obtain ⟨hu1, _⟩ := (mem_culdesacNodes g u).1 hmem
    by_cases huv : u = v
    · subst huv
      have hut : ¬ (u = (firstNb g u).1 ∧ g.degree (firstNb g u).1 = 1) := by
        rintro ⟨h1, _⟩
        exact hnev h1.symm
      simp only [Function.comp_apply]
      rw [if_neg hnev, if_neg hut]
    · simp only [Function.comp_apply, if_neg huv]
      obtain ⟨hnbu, hlinku, hneu⟩ := deadEnd_structure g u hu1
      by_cases hp : (firstNb g u).1 = v
      · have h1 : (u, (firstNb g u).2) ∈ g.neighbors v := by
          refine (mem_neighbors_iff ..).2 (linksTo_symm ?_)
          rw [← hp]
          exact hlinku
        rw [hnbv, List.mem_singleton] at h1
        have hut : u = (firstNb g v).1 := by rw [← h1]
        have hdt : g.degree (firstNb g v).1 = 1 := by rw [← hut]; exact hu1
        rw [if_pos hp, if_pos ⟨hut, hdt⟩]
      · have hcon : ¬ (u = (firstNb g v).1 ∧ g.degree (firstNb g v).1 = 1) := by
          rintro ⟨hut, hdt⟩
          apply hp
          have := firstNb_of_deadEnds g (firstNb g v).1 v hdt hlinkv
          rw [hut]
          exact this
        rw [if_neg hp, if_neg hcon]
  rw [List.map_congr_left hcongr, sum_map_add, sum_map_indicator_nodup _ hnd v,
    if_pos hself]
  by_cases hdt : g.degree (firstNb g v).1 = 1
  · have htmem : (firstNb g v).1 ∈ culdesacNodes g :=
      (mem_culdesacNodes g _).2 ⟨hdt, lt_nodeCount_of_linksTo (linksTo_symm hlinkv)⟩
    have : ((culdesacNodes g).map fun u =>
        if u = (firstNb g v).1 ∧ g.degree (firstNb g v).1 = 1 then 1 else 0) =
        (culdesacNodes g).map fun u => if u = (firstNb g v).1 then 1 else 0 := by
      refine List.map_congr_left fun u _ => ?_
      simp [hdt]
    rw [this, sum_map_indicator_nodup _ hnd _, if_pos htmem, if_pos hdt]
  · have : ((culdesacNodes g).map fun u =>
        if u = (firstNb g v).1 ∧ g.degree (firstNb g v).1 = 1 then 1 else 0) =
        (culdesacNodes g).map fun _ => 0 := by
      refine List.map_congr_left fun u _ => ?_
      simp [hdt]
    rw [this, if_neg hdt]
    simp

lemma fixLoop_cons (v : Nat) (vs : List Nat) (G : Graph) :
    fixLoop (v :: vs) G =
      match (G.neighbors v).head? with
      | some (t, w) => fixLoop vs (G.addEdge v t w)
      | none => none := rfl

lemma fixLoop_spec (g : Graph) :
    ∀ (vs : List Nat) (ext : List E3), (∀ v ∈ vs, g.degree v = 1) →
      fixLoop vs ⟨g.edges ++ ext⟩ =
        some ⟨g.edges ++ (ext ++ vs.map fun v => (v, (firstNb g v).1, (firstNb g v).2))⟩
  | [], ext, _ => by simp [fixLoop]
  | v :: vs, ext, h => by
    have hv := h v (List.mem_cons_self ..)
    obtain ⟨hnbv, _, _⟩ := deadEnd_structure g v hv
    have hhead : ((⟨g.edges ++ ext⟩ : Graph).neighbors v).head? =
        some ((firstNb g v).1, (firstNb g v).2) := by
      have hne : (⟨g.edges ++ ext⟩ : Graph).neighbors v =
          g.neighbors v ++ (⟨ext⟩ : Graph).neighbors v := neighbors_append ..
      rw [hne, hnbv]
      rfl
    rw [fixLoop_cons, hhead]
    show fixLoop vs ((⟨g.edges ++ ext⟩ : Graph).addEdge v (firstNb g v).1 (firstNb g v).2) = _
    have hstep : (⟨g.edges ++ ext⟩ : Graph).addEdge v (firstNb g v).1 (firstNb g v).2 =
        ⟨g.edges ++ (ext ++ [(v, (firstNb g v).1, (firstNb g v).2)])⟩ := by
      simp [Graph.addEdge]
    rw [hstep, fixLoop_spec g vs _ fun u hu => h u (List.mem_cons_of_mem _ hu)]
    simp

/-- C5 counterexample: on the single-edge graph 0 – 1 both endpoints are
dead ends; `fix_culdesacs` duplicates the edge once per endpoint, leaving
node 0 (previously degree 1) with degree 3, not 2. -/
theorem fix_culdesacs_counterexample :
    (⟨[(0, 1, 5)]⟩ : Graph).degree 0 = 1 ∧
    fix_culdesacs ⟨[(0, 1, 5)]⟩ = some ⟨[(0, 1, 5), (0, 1, 5), (1, 0, 5)]⟩ ∧
    (⟨[(0, 1, 5), (0, 1, 5), (1, 0, 5)]⟩ : Graph).degree 0 = 3 := by
  decide

/-- C5 as amended: `fix_culdesacs` appends exactly one duplicate of the
single incident edge of each dead end (same endpoints, same weight) and
nothing else; a previously degree-1 node ends with degree 2 when its sole
neighbor is not itself a dead end, and with degree 3 when it is (the two
mutually adjacent dead ends each duplicate their shared edge). -/
theorem fix_culdesacs_amended (g : Graph) :
    fix_culdesacs g = some ⟨g.edges ++ dupEdges g⟩ ∧
    ∀ v, g.degree v = 1 →
      linksTo g v (firstNb g v).1 (firstNb g v).2 ∧
      (⟨g.edges ++ dupEdges g⟩ : Graph).degree v =
        if g.degree (firstNb g v).1 = 1 then 3 else 2 := by
  constructor
  · have h := fixLoop_spec g (culdesacNodes g) []
      fun v hv => ((mem_culdesacNodes g v).1 hv).1
    rw [show (⟨g.edges ++ []⟩ : Graph) = g from by simp] at h
    simpa [fix_culdesacs, dupEdges] using h
  · intro v hv
    refine ⟨(deadEnd_structure g v hv).2.1, ?_⟩
    rw [degree_append, show (⟨g.edges⟩ : Graph) = g from rfl, hv,
      degree_dupEdges g v hv]
    by_cases hdt : g.degree (firstNb g v).1 = 1 <;> simp [hdt]

/-- C5 amended witness: the dead-end scenario of spec §8 (path 0 – 1 – 2). -/
theorem fix_culdesacs_amended_witness :
    gOddPath.degree 0 = 1 ∧
    fix_culdesacs gOddPath = some ⟨gOddPath.edges ++ dupEdges gOddPath⟩ ∧
    (⟨gOddPath.edges ++ dupEdges gOddPath⟩ : Graph).degree 0 = 2 := by
  have h := fix_culdesacs_amended gOddPath
  refine ⟨by decide, h.1, ?_⟩
  have h0 := (h.2 0 (by decide)).2
  rw [h0]
  decide

/-! ## C7: `build_graph` characterization -/

/-- The comma tokens of one line, tagged with the line index. -/
def lineTokensAt (i : Nat) (l : List Char) : List (Nat × List Char) :=
  (splitOnChar ',' l).map fun t => (i, t)

/-- All tokens of a line list, tagged with their zero-based line numbers
starting at `k`. -/
def tokensFrom : List (List Char) → Nat → List (Nat × List Char)
  | [], _ => []
  | l :: ls, k => lineTokensAt k l ++ tokensFrom ls (k + 1)

/-- Every token of the input, in encounter order. -/
def lineTokens (input : String) : List (Nat × List Char) :=
  tokensFrom (rustLines input) 0

/-- Per-token outcome: `some none` for a skipped token (no `':'` separator,
i.e. `split(":")` gives one piece), `some (some edge)` for a parsed token,
`none` for a fatal numeric parse failure. -/
def tokenResult (i : Nat) (tok : List Char) : Option (Option E3) :=
  match splitOnChar ':' tok with
  | [_] => some none
  | x :: y :: _ =>
    match parseUsize x, parseUsize y with
    | some v, some w => some (some (i, v, w))
    | _, _ => none
  | [] => some none

/-- The edge a token contributes, if any. -/
def keptEdge (p : Nat × List Char) : Option E3 :=
  match tokenResult p.1 p.2 with
  | some (some e) => some e
  | _ => none

/-- The edges of a fully successful parse, in encounter order. -/
def goodEdges (input : String) : List E3 :=
  (lineTokens input).filterMap keptEdge

lemma buildLine_spec (i : Nat) :
    ∀ (toks : List (List Char)) (acc : List E3),
      buildLine i toks acc =
        if ∃ t ∈ toks, tokenResult i t = none then none
        else some (acc ++ toks.filterMap fun t => keptEdge (i, t))
  | [], acc => by simp [buildLine]
  | t :: rest, acc => by
    have ih := buildLine_spec i rest
    rcases hsp : splitOnChar ':' t with _ | ⟨x, r⟩
    · rw [show buildLine i (t :: rest) acc = buildLine i rest acc from by
        simp only [buildLine]; rw [hsp]]
      rw [ih acc]
      have ht : tokenResult i t = some none := by rw [tokenResult, hsp]
      simp [ht, keptEdge]
    · rcases r with _ | ⟨y, r'⟩
      · rw [show buildLine i (t :: rest) acc = buildLine i rest acc from by
          simp only [buildLine]; rw [hsp]]
        rw [ih acc]
        have ht : tokenResult i t = some none := by rw [tokenResult, hsp]
        simp [ht, keptEdge]
      · rcases hx : parseUsize x with _ | v
        · have hb : buildLine i (t :: rest) acc = none := by
            simp only [buildLine]; rw [hsp]
            rcases parseUsize y with _ | w <;> simp [hx]
          have ht : tokenResult i t = none := by
            rw [tokenResult, hsp]
            rcases parseUsize y with _ | w <;> simp [hx]
          rw [hb, if_pos ⟨t, List.mem_cons_self .., ht⟩]
        · rcases hy : parseUsize y with _ | w
          · have hb : buildLine i (t :: rest) acc = none := by
              simp only [buildLine]; rw [hsp]; simp [hx, hy]
            have ht : tokenResult i t = none := by
              rw [tokenResult, hsp]; simp [hx, hy]
            rw [hb, if_pos ⟨t, List.mem_cons_self .., ht⟩]
          · have hb : buildLine i (t :: rest) acc =
                buildLine i rest (acc ++ [(i, v, w)]) := by
              simp only [buildLine]; rw [hsp]; simp [hx, hy]
            have ht : tokenResult i t = some (some (i, v, w)) := by
              rw [tokenResult, hsp]; simp [hx, hy]
            rw [hb, ih]
            simp [ht, keptEdge, List.filterMap_cons]

lemma buildLoop_spec :
    ∀ (ls : List (List Char)) (k : Nat) (acc : List E3),
      buildLoop ls k acc =
        if ∃ p ∈ tokensFrom ls k, tokenResult p.1 p.2 = none then none
        else some (acc ++ (tokensFrom ls k).filterMap keptEdge)
  | [], k, acc => by simp [buildLoop, tokensFrom]
  | l :: ls, k, acc => by
    have hline := buildLine_spec k (splitOnChar ',' l) acc
    have hmem : ∀ t, (∃ t' ∈ splitOnChar ',' l, t = t') ↔ t ∈ splitOnChar ',' l := by
      intro t; constructor
      · rintro ⟨t', ht', rfl⟩; exact ht'
      · intro h; exact ⟨t, h, rfl⟩
    by_cases hfail : ∃ t ∈ splitOnChar ',' l, tokenResult k t = none
    · rw [show buildLoop (l :: ls) k acc = none from by
        simp only [buildLoop]; rw [hline, if_pos hfail]]
      obtain ⟨t, htmem, htr⟩ := hfail
      have : ∃ p ∈ tokensFrom (l :: ls) k, tokenResult p.1 p.2 = none := by
        refine ⟨(k, t), ?_, htr⟩
        simp only [tokensFrom, List.mem_append]
        exact Or.inl (List.mem_map.2 ⟨t, htmem, rfl⟩)
      rw [if_pos this]
    · rw [show buildLoop (l :: ls) k acc =
          buildLoop ls (k + 1) (acc ++ (splitOnChar ',' l).filterMap fun t => keptEdge (k, t))
        from by simp only [buildLoop]; rw [hline, if_neg hfail]]
      rw [buildLoop_spec ls (k + 1) _]
      have hsplit : ∀ p ∈ lineTokensAt k l, tokenResult p.1 p.2 ≠ none := by
        rintro ⟨j, t⟩ hp
        obtain ⟨t', ht', heq⟩ := List.mem_map.1 hp
        cases heq
        exact fun hc => hfail ⟨_, ht', hc⟩
      by_cases hrest : ∃ p ∈ tokensFrom ls (k + 1), tokenResult p.1 p.2 = none
      · rw [if_pos hrest, if_pos ?_]
        obtain ⟨p, hp, hpr⟩ := hrest
        exact ⟨p, by simp [tokensFrom, List.mem_append, hp], hpr⟩
      · rw [if_neg hrest, if_neg ?_]
        swap
        · rintro ⟨p, hp, hpr⟩
          simp only [tokensFrom, List.mem_append] at hp
          rcases hp with hp | hp
          · exact hsplit p hp hpr
          · exact hrest ⟨p, hp, hpr⟩
        · have : (tokensFrom (l :: ls) k).filterMap keptEdge =
              (lineTokensAt k l).filterMap keptEdge ++ (tokensFrom ls (k + 1)).filterMap keptEdge := by
            simp [tokensFrom, List.filterMap_append]
          rw [this]
          have : (lineTokensAt k l).filterMap keptEdge =
              (splitOnChar ',' l).filterMap fun t => keptEdge (k, t) := by
            rw [lineTokensAt, List.filterMap_map]
            rfl
          rw [this, List.append_assoc]

/-- C7: `build_graph` skips separator-free tokens, emits one edge
`(line, vertex, weight)` per well-formed token in encounter order without
deduplication, and aborts the whole parse (no partial graph) exactly when
some token's vertex or weight part fails integer parsing. -/
theorem build_graph_spec (input : String) :
    (build_graph input = none ↔ ∃ p ∈ lineTokens input, tokenResult p.1 p.2 = none) ∧
    ∀ g, build_graph input = some g → g.edges = goodEdges input := by
  have h := buildLoop_spec (rustLines input) 0 []
  constructor
  · rw [build_graph, lineTokens, h]
    by_cases hfail : ∃ p ∈ tokensFrom (rustLines input) 0, tokenResult p.1 p.2 = none
    · simp [hfail]
    · simp [hfail]
  · intro g hg
    rw [build_graph, h] at hg
    by_cases hfail : ∃ p ∈ tokensFrom (rustLines input) 0, tokenResult p.1 p.2 = none
    · rw [if_pos hfail] at hg; cases hg
    · rw [if_neg hfail] at hg
      simp only [List.nil_append, Option.map_some', Option.some.injEq] at hg
      rw [← hg]
      rfl

/-- C7 witness: a malformed token (`xx`) is skipped and a signed numeral
parses, while an unparsable weight (`z`) aborts the whole parse; a
`"\r\n"`-terminated line parses, but a bare trailing `'\r'` on an
unterminated final line stays in the weight token and is fatal. -/
theorem build_graph_spec_witness :
    build_graph "1:10,xx\n2:+5" = some ⟨[(0, 1, 10), (1, 2, 5)]⟩ ∧
    (⟨[(0, 1, 10), (1, 2, 5)]⟩ : Graph).edges = goodEdges "1:10,xx\n2:+5" ∧
    build_graph "1:z" = none ∧
    build_graph "1:5\r\n" = some ⟨[(0, 1, 5)]⟩ ∧
    build_graph "1:5\r" = none := by
  refine ⟨by decide, (build_graph_spec "1:10,xx\n2:+5").2 _ (by decide), ?_,
    by decide, ?_⟩
  · exact (build_graph_spec "1:z").1.mpr ⟨(0, ['1', ':', 'z']), by decide, by decide⟩
  · exact (build_graph_spec "1:5\r").1.mpr
      ⟨(0, ['1', ':', '5', '\r']), by decide, by decide⟩

/-! ## Walk infrastructure for the shortest-path specification -/

/-- Remove the first occurrence of an edge value. -/
def eraseEdge : List E3 → E3 → List E3
  | [], _ => []
  | e :: t, a => if e = a then t else e :: eraseEdge t a

lemma eraseEdge_perm {l : List E3} {a : E3} (h : a ∈ l) :
    l.Perm (a :: eraseEdge l a) := by
  induction l with
  | nil => cases h
  | cons e t ih =>
    by_cases he : e = a
    · subst he
      simp [eraseEdge]
    · rcases List.mem_cons.1 h with h1 | h1
      · exact absurd h1.symm he
      · rw [eraseEdge, if_neg he]
        exact ((ih h1).cons e).trans (List.Perm.swap a e _)

lemma mem_eraseEdge_of_ne {l : List E3} {a b : E3} (hne : b ≠ a) (h : b ∈ l) :
    b ∈ eraseEdge l a := by
  induction l with
  | nil => cases h
  | cons e t ih =>
    rw [eraseEdge]
    by_cases he : e = a
    · rw [if_pos he]
      rcases List.mem_cons.1 h with h1 | h1
      · exact absurd (h1.trans he) hne
      · exact h1
    · rw [if_neg he]
      rcases List.mem_cons.1 h with h1 | h1
      · exact h1 ▸ List.mem_cons_self ..
      · exact List.mem_cons_of_mem _ (ih h1)

lemma isWalk_append (g : Graph) :
    ∀ (s1 s2 : List (Nat × Nat)) (u : Nat),
      IsWalk g u (s1 ++ s2) ↔ IsWalk g u s1 ∧ IsWalk g (walkEnd u s1) s2
  | [], s2, u => by simp [IsWalk, walkEnd]
  | (v, w) :: rest, s2, u => by
    simp only [List.cons_append, IsWalk, walkEnd, List.append_eq,
      isWalk_append g rest s2 v, and_assoc]

lemma walkEnd_append :
    ∀ (s1 s2 : List (Nat × Nat)) (u : Nat),
      walkEnd u (s1 ++ s2) = walkEnd (walkEnd u s1) s2
  | [], s2, u => rfl
  | (v, w) :: rest, s2, u => by
    simp only [List.cons_append, walkEnd, List.append_eq, walkEnd_append rest s2 v]

lemma walkWeight_append (s1 s2 : List (Nat × Nat)) :
    walkWeight (s1 ++ s2) = walkWeight s1 + walkWeight s2 := by
  simp [walkWeight]

lemma walkWeight_cons (v w : Nat) (rest : List (Nat × Nat)) :
    walkWeight ((v, w) :: rest) = w + walkWeight rest := by
  simp [walkWeight]

lemma reachable_refl (g : Graph) (u : Nat) : Reachable g u u := ⟨[], trivial, rfl⟩

lemma reachable_step {g : Graph} {u v t w : Nat} (h : Reachable g u v)
    (hl : linksTo g v t w) : Reachable g u t := by
  obtain ⟨s, hw, he⟩ := h
  refine ⟨s ++ [(t, w)], ?_, ?_⟩
  · rw [isWalk_append]
    exact ⟨hw, by rw [he]; exact ⟨hl, trivial⟩⟩
  · rw [walkEnd_append, he]
    rfl

/-- Loop erasure: every walk can be replaced by one visiting pairwise
distinct nodes, with the same endpoints and targets among the original's. -/
lemma exists_nodup_walk (g : Graph) :
    ∀ (fuel : Nat) (steps : List (Nat × Nat)) (u : Nat), steps.length ≤ fuel →
      IsWalk g u steps →
      ∃ s, IsWalk g u s ∧ walkEnd u s = walkEnd u steps ∧
        (u :: s.map Prod.fst).Nodup ∧ ∀ x ∈ s.map Prod.fst, x ∈ steps.map Prod.fst
  | fuel, [], u, _, _ => ⟨[], trivial, rfl, by simp, by simp⟩
  | fuel + 1, (v, w) :: rest, u, hfuel, hwalk => by
    obtain ⟨hl, hwrest⟩ := hwalk
    by_cases hu : u ∈ ((v, w) :: rest).map Prod.fst
    · obtain ⟨p, hp, hpu⟩ := List.mem_map.1 hu
      obtain ⟨s1, s2, hsplit⟩ := List.append_of_mem hp
      have hlen : s2.length ≤ fuel := by
        have h1 := congrArg List.length hsplit
        simp only [List.length_cons, List.length_append] at h1 hfuel
        omega
      have hw2 : IsWalk g u s2 := by
        have := (isWalk_append g s1 (p :: s2) u).1 (hsplit ▸ And.intro hl hwrest)
        have h2 := this.2
        rw [show p = (p.1, p.2) from rfl] at h2
        obtain ⟨-, h3⟩ := h2
        rwa [hpu] at h3
      obtain ⟨s, hws, hes, hnd, hsub⟩ := exists_nodup_walk g fuel s2 u hlen hw2
      refine ⟨s, hws, ?_, hnd, ?_⟩
      · rw [hes, hsplit, walkEnd_append]
        rw [show p = (p.1, p.2) from rfl, walkEnd, hpu]
      · intro x hx
        have := hsub x hx
        rw [hsplit]
        simp only [List.map_append, List.mem_append, List.map_cons, List.mem_cons]
        exact Or.inr (Or.inr this)
    · have hlen : rest.length ≤ fuel := by simp at hfuel; omega
      obtain ⟨s, hws, hes, hnd, hsub⟩ := exists_nodup_walk g fuel rest v hlen hwrest
      refine ⟨(v, w) :: s, ⟨hl, hws⟩, hes, ?_, ?_⟩
      · rw [List.map_cons, List.nodup_cons]
        refine ⟨?_, hnd⟩
        intro hmem
        apply hu
        rcases List.mem_cons.1 hmem with h | h
        · simp [h]
        · simp only [List.map_cons, List.mem_cons]
          exact Or.inr (hsub u h)
      · intro x hx
        simp only [List.map_cons, List.mem_cons] at hx ⊢
        rcases hx with h | h
        · exact Or.inl h
        · exact Or.inr (hsub x h)

/-- A walk through pairwise distinct nodes weighs at most the whole graph:
its first edge cannot recur later (later steps avoid `u`), so induct on the
graph with that edge occurrence erased. -/
lemma walkWeight_le_totalWeight :
    ∀ (s : List (Nat × Nat)) (g : Graph) (u : Nat), IsWalk g u s →
      (u :: s.map Prod.fst).Nodup → walkWeight s ≤ totalWeight g
  | [], g, u, _, _ => by simp [walkWeight]
  | (v, w) :: rest, g, u, hwalk, hnd => by
    obtain ⟨hl, hwrest⟩ := hwalk
    have hmem : (u, v, w) ∈ g.edges ∨ (v, u, w) ∈ g.edges := hl
    set e0 : E3 := if (u, v, w) ∈ g.edges then (u, v, w) else (v, u, w) with he0
    have he0mem : e0 ∈ g.edges := by
      rw [he0]
      split
      · assumption
      · rcases hmem with h | h
        · exact absurd h (by assumption)
        · exact h
    have hnottail : ∀ x ∈ rest.map Prod.fst, x ≠ u := by
      intro x hx hxu
      have hmem2 : u ∈ ((v, w) :: rest).map Prod.fst := by
        simp only [List.map_cons, List.mem_cons]
        exact Or.inr (hxu ▸ hx)
      exact (List.nodup_cons.1 hnd).1 hmem2
    have hvne : v ≠ u := by
      intro hvu
      exact (List.nodup_cons.1 hnd).1 (by simp [hvu])
    have hwrest' : IsWalk ⟨eraseEdge g.edges e0⟩ v rest := by
      have hchain : ∀ (s' : List (Nat × Nat)) (x : Nat), x ≠ u →
          (∀ y ∈ s'.map Prod.fst, y ≠ u) → IsWalk g x s' →
          IsWalk ⟨eraseEdge g.edges e0⟩ x s' := by
        intro s'
        induction s' with
        | nil => intro x _ _ _; trivial
        | cons p tl ih =>
          intro x hx htl hw
          obtain ⟨hpl, hptl⟩ := hw
          refine ⟨?_, ih p.1 (htl p.1 (by simp)) (fun y hy => htl y (by simp [hy])) hptl⟩
          have hne : ∀ z : E3, (z = (x, p.1, p.2) ∨ z = (p.1, x, p.2)) → z ≠ e0 := by
            rintro z (rfl | rfl) hze
            · rw [he0] at hze
              split at hze
              · have : x = u := congrArg (fun t : E3 => t.1) hze
                exact hx this
              · have : p.1 = u := congrArg (fun t : E3 => t.2.1) hze
                exact htl p.1 (by simp) this
            · rw [he0] at hze
              split at hze
              · have : p.1 = u := congrArg (fun t : E3 => t.1) hze
                exact htl p.1 (by simp) this
              · have : x = u := congrArg (fun t : E3 => t.2.1) hze
                exact hx this
          rcases hpl with h | h
          · exact Or.inl (mem_eraseEdge_of_ne (hne _ (Or.inl rfl)) h)
          · exact Or.inr (mem_eraseEdge_of_ne (hne _ (Or.inr rfl)) h)
      exact hchain rest v hvne hnottail hwrest
    have hndrest : (v :: rest.map Prod.fst).Nodup := by
      have := hnd
      rw [List.map_cons] at this
      exact (List.nodup_cons.1 this).2
    have ih := walkWeight_le_totalWeight rest ⟨eraseEdge g.edges e0⟩ v hwrest' hndrest
    have hperm : g.edges.Perm (e0 :: eraseEdge g.edges e0) := eraseEdge_perm he0mem
    have htot : totalWeight g = e0.2.2 + totalWeight ⟨eraseEdge g.edges e0⟩ := by
      rw [totalWeight, totalWeight, List.Perm.sum_eq (hperm.map fun e => e.2.2)]
      simp
    have hw0 : e0.2.2 = w := by
      rw [he0]
      split <;> rfl
    rw [walkWeight_cons, htot, hw0]
    omega

/-- Any reachable node is reachable by a walk weighing at most the graph. -/
lemma reachable_exists_cheap_walk {g : Graph} {u v : Nat} (h : Reachable g u v) :
    ∃ s, WalkFrom g u v s ∧ walkWeight s ≤ totalWeight g := by
  obtain ⟨steps, hw, he⟩ := h
  obtain ⟨s, hws, hes, hnd, -⟩ :=
    exists_nodup_walk g steps.length steps u le_rfl hw
  exact ⟨s, ⟨hws, by rw [hes, he]⟩, walkWeight_le_totalWeight s g u hws hnd⟩

/-- Every reachable node has a (unique, bounded) shortest distance. -/
lemma reachable_isShortest {g : Graph} {u v : Nat} (h : Reachable g u v) :
    ∃ d, IsShortestDist g u v d ∧ d ≤ totalWeight g := by
  obtain ⟨s0, hs0, hb0⟩ := reachable_exists_cheap_walk h
  set S : Set Nat := {d | ∃ s, WalkFrom g u v s ∧ walkWeight s = d} with hS
  have hne : S.Nonempty := ⟨walkWeight s0, s0, hs0, rfl⟩
  refine ⟨sInf S, ⟨?_, ?_⟩, ?_⟩
  · exact Nat.sInf_mem hne
  · intro s hs
    exact Nat.sInf_le ⟨s, hs, rfl⟩
  · exact le_trans (Nat.sInf_le ⟨s0, hs0, rfl⟩) hb0

lemma isShortest_unique {g : Graph} {u v d d' : Nat} (h : IsShortestDist g u v d)
    (h' : IsShortestDist g u v d') : d = d' := by
  obtain ⟨⟨s, hs, hw⟩, hmin⟩ := h
  obtain ⟨⟨s', hs', hw'⟩, hmin'⟩ := h'
  have h1 := hmin s' hs'
  have h2 := hmin' s hs
  omega

/-! ## Elementary facts about the Dijkstra loop's list operations -/

lemma findEntry?_none_iff (c : Nat) :
    ∀ l : List (Nat × Nat), findEntry? c l = none ↔ c ∉ l.map Prod.fst
  | [] => by simp [findEntry?]
  | q :: rest => by
    by_cases hq : q.1 = c
    · simp [findEntry?, hq]
    · simp [findEntry?, hq, findEntry?_none_iff c rest, Ne.symm hq]

lemma findEntry?_some (c : Nat) :
    ∀ l q, findEntry? c l = some q → q ∈ l ∧ q.1 = c
  | [], q => by simp [findEntry?]
  | p :: rest, q => by
    by_cases hp : p.1 = c
    · rw [findEntry?, if_pos hp]
      rintro ⟨rfl⟩
      exact ⟨List.mem_cons_self .., hp⟩
    · rw [findEntry?, if_neg hp]
      intro h
      obtain ⟨h1, h2⟩ := findEntry?_some c rest q h
      exact ⟨List.mem_cons_of_mem _ h1, h2⟩

lemma findEntry?_isSome {c : Nat} {l : List (Nat × Nat)} (h : c ∈ l.map Prod.fst) :
    ∃ q, findEntry? c l = some q := by
  rcases hq : findEntry? c l with _ | q
  · exact absurd h ((findEntry?_none_iff c l).1 hq)
  · exact ⟨q, rfl⟩

/-- With pairwise distinct node indices, the first entry for `c` is the
unique one. -/
lemma findEntry?_of_mem {c d : Nat} :
    ∀ {l : List (Nat × Nat)}, (l.map Prod.fst).Nodup → (c, d) ∈ l →
      findEntry? c l = some (c, d) := by
  intro l
  induction l with
  | nil => intro _ h; cases h
  | cons p rest ih =>
    intro hnd hmem
    rcases List.mem_cons.1 hmem with h1 | h1
    · rw [findEntry?, ← h1]
      simp
    · have hp : p.1 ≠ c := by
        intro hpc
        have hc : c ∈ rest.map Prod.fst := List.mem_map.2 ⟨(c, d), h1, rfl⟩
        rw [List.map_cons, List.nodup_cons, hpc] at hnd
        exact hnd.1 hc
      rw [findEntry?, if_neg hp]
      rw [List.map_cons, List.nodup_cons] at hnd
      exact ih hnd.2 h1

lemma position?_spec (c : Nat) :
    ∀ l j, position? c l = some j → ∃ q, l.get? j = some q ∧ q.1 = c
  | [], j => by simp [position?]
  | p :: rest, j => by
    by_cases hp : p.1 = c
    · rw [position?, if_pos hp]
      rintro ⟨rfl⟩
      exact ⟨p, rfl, hp⟩
    · rw [position?, if_neg hp]
      rcases hrec : position? c rest with _ | j'
      · simp
      · simp only [hrec, Option.map_some', Option.some.injEq]
        rintro rfl
        obtain ⟨q, hq1, hq2⟩ := position?_spec c rest j' hrec
        exact ⟨q, by simpa using hq1, hq2⟩

lemma position?_isSome {c : Nat} :
    ∀ {l : List (Nat × Nat)}, c ∈ l.map Prod.fst → ∃ j, position? c l = some j := by
  intro l
  induction l with
  | nil => simp
  | cons p rest ih =>
    intro hmem
    by_cases hp : p.1 = c
    · exact ⟨0, by rw [position?, if_pos hp]⟩
    · have hmem' : c ∈ p.1 :: rest.map Prod.fst := by simpa using hmem
      have hc : c ∈ rest.map Prod.fst := by
        rcases List.mem_cons.1 hmem' with h | h
        · exact absurd h.symm hp
        · exact h
      obtain ⟨j, hj⟩ := ih hc
      exact ⟨j + 1, by rw [position?, if_neg hp, hj]; rfl⟩

lemma set_same {α : Type _} :
    ∀ (l : List α) (j : Nat) (a : α), l.get? j = some a → l.set j a = l
  | [], j, a => by simp
  | x :: t, 0, a => by
    intro h
    obtain rfl : x = a := by injection h
    rfl
  | x :: t, j + 1, a => by
    intro h
    rw [List.get?_cons_succ] at h
    rw [List.set_cons_succ, set_same t j a h]

lemma swapRemove_eq {α : Type _} (l : List α) (i : Nat) (b : α)
    (h : l.getLast? = some b) : swapRemove l i = (l.set i b).dropLast := by
  rw [swapRemove, h]

lemma swapRemove_perm {α : Type _} :
    ∀ (l : List α) (i : Nat) (a : α), l.get? i = some a →
      l.Perm (a :: swapRemove l i)
  | [], i, a => by simp
  | x :: t, 0, a => by
    intro h
    rw [List.get?_cons_zero] at h
    cases h
    rcases t with _ | ⟨y, t'⟩
    · rw [swapRemove]
      simp
    · have hb : ∃ b, (y :: t').getLast? = some b := by
        rcases hl : (y :: t').getLast? with _ | b
        · simp at hl
        · exact ⟨b, rfl⟩
      obtain ⟨b, hb⟩ := hb
      have hlast : (x :: y :: t').getLast? = some b := by
        rw [List.getLast?_cons_cons]
        exact hb
      rw [swapRemove_eq _ 0 b hlast, List.set_cons_zero]
      have hsplit : (y :: t').dropLast ++ [b] = y :: t' :=
        List.dropLast_append_getLast? b hb
      have hdl : (b :: y :: t').dropLast = b :: (y :: t').dropLast := by
        rw [List.dropLast_cons₂]
      rw [hdl]
      have hperm2 : ((y :: t').dropLast ++ [b]).Perm (b :: (y :: t').dropLast) :=
        List.perm_append_singleton b _
      rw [hsplit] at hperm2
      exact List.Perm.cons x hperm2
  | x :: t, i + 1, a => by
    intro h
    rw [List.get?_cons_succ] at h
    rcases t with _ | ⟨y, t'⟩
    · simp at h
    · have hb : ∃ b, (y :: t').getLast? = some b := by
        rcases hl : (y :: t').getLast? with _ | b
        · simp at hl
        · exact ⟨b, rfl⟩
      obtain ⟨b, hbl⟩ := hb
      have hlast : (x :: y :: t').getLast? = some b := by
        rw [List.getLast?_cons_cons]
        exact hbl
      have hset : (x :: y :: t').set (i + 1) b = x :: (y :: t').set i b := rfl
      have hne2 : (y :: t').set i b ≠ [] := by
        intro hc
        have hlen := congrArg List.length hc
        simp [List.length_set] at hlen
      have hdl : (x :: (y :: t').set i b).dropLast =
          x :: ((y :: t').set i b).dropLast := by
        rcases hts : (y :: t').set i b with _ | ⟨z, t2⟩
        · exact absurd hts hne2
        · rw [List.dropLast_cons₂]
      rw [swapRemove_eq _ (i + 1) b hlast, hset, hdl]
      have hsw : swapRemove (y :: t') i = ((y :: t').set i b).dropLast :=
        swapRemove_eq _ i b hbl
      have ih := swapRemove_perm (y :: t') i a h
      rw [hsw] at ih
      exact (List.Perm.cons x ih).trans (List.Perm.swap a x _)

lemma swapRemove_length {α : Type _} (l : List α) (i : Nat) (a : α)
    (h : l.get? i = some a) : (swapRemove l i).length + 1 = l.length := by
  have := (swapRemove_perm l i a h).length_eq
  simpa using this.symm

lemma minFold_spec :
    ∀ (l : List (Nat × Nat)) (acc : Nat × Nat),
      minFold acc l ∈ acc :: l ∧ ∀ p ∈ acc :: l, (minFold acc l).2 ≤ p.2
  | [], acc => by
    refine ⟨by rw [minFold]; exact List.mem_cons_self .., ?_⟩
    intro p hp
    rcases List.mem_cons.1 hp with h | h
    · rw [minFold, h]
    · cases h
  | y :: ys, acc => by
    rw [minFold]
    by_cases hy : y.2 < acc.2
    · rw [if_pos hy]
      obtain ⟨hmem, hmin⟩ := minFold_spec ys y
      refine ⟨?_, ?_⟩
      · rcases List.mem_cons.1 hmem with h | h
        · rw [h]; simp
        · simp [h]
      · intro p hp
        have hy2 := hmin y (List.mem_cons_self ..)
        rcases List.mem_cons.1 hp with h | h
        · subst h; omega
        · rcases List.mem_cons.1 h with h1 | h1
          · subst h1; omega
          · exact hmin p (List.mem_cons_of_mem _ h1)
    · rw [if_neg hy]
      obtain ⟨hmem, hmin⟩ := minFold_spec ys acc
      refine ⟨?_, ?_⟩
      · rcases List.mem_cons.1 hmem with h | h
        · simp [h]
        · simp [h]
      · intro p hp
        have hacc2 := hmin acc (List.mem_cons_self ..)
        rcases List.mem_cons.1 hp with h | h
        · subst h; omega
        · rcases List.mem_cons.1 h with h1 | h1
          · subst h1; omega
          · exact hmin p (List.mem_cons_of_mem _ h1)

lemma minEntry_spec {l : List (Nat × Nat)} {m : Nat × Nat}
    (h : minEntry l = some m) : m ∈ l ∧ ∀ p ∈ l, m.2 ≤ p.2 := by
  rcases l with _ | ⟨x, xs⟩
  · cases h
  · rw [minEntry] at h
    obtain rfl : minFold x xs = m := by injection h
    exact minFold_spec xs x

/-! ## Relaxation lemmas -/

lemma relaxOne_none_iff (t cand : Nat) :
    ∀ unv : List (Nat × Nat), relaxOne t cand unv = none ↔ t ∉ unv.map Prod.fst
  | [] => by simp [relaxOne]
  | (i, d) :: rest => by
    by_cases hi : i = t
    · rw [relaxOne, if_pos hi]
      simp [hi]
    · rw [relaxOne, if_neg hi]
      rw [Option.map_eq_none', relaxOne_none_iff t cand rest]
      simp [Ne.symm hi]

lemma relaxOne_some_map (t cand : Nat) :
    ∀ unv unv', relaxOne t cand unv = some unv' →
      unv'.map Prod.fst = unv.map Prod.fst
  | [], unv' => by simp [relaxOne]
  | (i, d) :: rest, unv' => by
    by_cases hi : i = t
    · rw [relaxOne, if_pos hi]
      rintro ⟨rfl⟩
      split <;> simp
    · rw [relaxOne, if_neg hi]
      rcases hr : relaxOne t cand rest with _ | rest'
      · simp
      · simp only [Option.map_some', Option.some.injEq]
        rintro rfl
        simp [relaxOne_some_map t cand rest rest' hr]

lemma relaxOne_provenance (t cand : Nat) :
    ∀ unv unv', relaxOne t cand unv = some unv' →
      ∀ q ∈ unv', ∃ d0, (q.1, d0) ∈ unv ∧ q.2 ≤ d0 ∧
        (q.2 = d0 ∨ (q.1 = t ∧ q.2 = cand))
  | [], unv' => by simp [relaxOne]
  | (i, d) :: rest, unv' => by
    by_cases hi : i = t
    · rw [relaxOne, if_pos hi]
      rintro ⟨rfl⟩ q hq
      by_cases hc : cand < d
      · rw [if_pos hc] at hq
        rcases List.mem_cons.1 hq with h | h
        · subst h
          exact ⟨d, List.mem_cons_self .., by omega, Or.inr ⟨hi, rfl⟩⟩
        · exact ⟨q.2, List.mem_cons_of_mem _ (by rwa [Prod.mk.eta]), le_rfl, Or.inl rfl⟩
      · rw [if_neg hc] at hq
        exact ⟨q.2, by rwa [Prod.mk.eta], le_rfl, Or.inl rfl⟩
    · rw [relaxOne, if_neg hi]
      rcases hr : relaxOne t cand rest with _ | rest'
      · simp
      · simp only [Option.map_some', Option.some.injEq]
        rintro rfl q hq
        rcases List.mem_cons.1 hq with h | h
        · subst h
          exact ⟨d, List.mem_cons_self .., le_rfl, Or.inl rfl⟩
        · obtain ⟨d0, hd0, hle, hor⟩ := relaxOne_provenance t cand rest rest' hr q h
          exact ⟨d0, List.mem_cons_of_mem _ hd0, hle, hor⟩

lemma relaxOne_bound (t cand : Nat) :
    ∀ unv unv', (unv.map Prod.fst).Nodup → relaxOne t cand unv = some unv' →
      ∀ q ∈ unv', q.1 = t → q.2 ≤ cand
  | [], unv' => by simp [relaxOne]
  | (i, d) :: rest, unv' => by
    intro hnd
    rw [List.map_cons, List.nodup_cons] at hnd
    by_cases hi : i = t
    · rw [relaxOne, if_pos hi]
      rintro ⟨rfl⟩ q hq hqt
      by_cases hc : cand < d
      · rw [if_pos hc] at hq
        rcases List.mem_cons.1 hq with h | h
        · subst h; exact le_rfl
        · exact absurd (by rw [hi]; exact List.mem_map.2 ⟨q, h, hqt⟩) hnd.1
      · rw [if_neg hc] at hq
        rcases List.mem_cons.1 hq with h | h
        · subst h; omega
        · exact absurd (by rw [hi]; exact List.mem_map.2 ⟨q, h, hqt⟩) hnd.1
    · rw [relaxOne, if_neg hi]
      rcases hr : relaxOne t cand rest with _ | rest'
      · simp
      · simp only [Option.map_some', Option.some.injEq]
        rintro rfl q hq hqt
        rcases List.mem_cons.1 hq with h | h
        · subst h; exact absurd hqt hi
        · exact relaxOne_bound t cand rest rest' hnd.2 hr q h hqt

lemma relaxOne_cover (t cand : Nat) :
    ∀ unv unv', relaxOne t cand unv = some unv' →
      ∀ q0 ∈ unv, ∃ q ∈ unv', q.1 = q0.1 ∧ q.2 ≤ q0.2
  | [], unv' => by simp [relaxOne]
  | (i, d) :: rest, unv' => by
    by_cases hi : i = t
    · rw [relaxOne, if_pos hi]
      rintro ⟨rfl⟩ q0 hq0
      rcases List.mem_cons.1 hq0 with h | h
      · subst h
        by_cases hc : cand < d
        · exact ⟨(i, cand), by rw [if_pos hc]; exact List.mem_cons_self .., rfl, by omega⟩
        · exact ⟨(i, d), by rw [if_neg hc]; exact List.mem_cons_self .., rfl, le_rfl⟩
      · refine ⟨q0, ?_, rfl, le_rfl⟩
        split <;> exact List.mem_cons_of_mem _ h
    · rw [relaxOne, if_neg hi]
      rcases hr : relaxOne t cand rest with _ | rest'
      · simp
      · simp only [Option.map_some', Option.some.injEq]
        rintro rfl q0 hq0
        rcases List.mem_cons.1 hq0 with h | h
        · subst h
          exact ⟨(i, d), List.mem_cons_self .., rfl, le_rfl⟩
        · obtain ⟨q, hq, h1, h2⟩ := relaxOne_cover t cand rest rest' hr q0 h
          exact ⟨q, List.mem_cons_of_mem _ hq, h1, h2⟩

lemma relaxAll_cons_some (cum t w : Nat) (ns : List (Nat × Nat))
    (unv unv2 : List (Nat × Nat)) (ovf : Bool)
    (h : relaxOne t ((w + cum) % 2 ^ 64) unv = some unv2) :
    relaxAll cum ((t, w) :: ns) unv ovf =
      relaxAll cum ns unv2 (ovf || decide (2 ^ 64 ≤ w + cum)) := by
  rw [relaxAll, h]

lemma relaxAll_cons_none (cum t w : Nat) (ns : List (Nat × Nat))
    (unv : List (Nat × Nat)) (ovf : Bool)
    (h : relaxOne t ((w + cum) % 2 ^ 64) unv = none) :
    relaxAll cum ((t, w) :: ns) unv ovf = relaxAll cum ns unv ovf := by
  rw [relaxAll, h]

lemma relaxAll_map (cum : Nat) :
    ∀ (ns : List (Nat × Nat)) unv ovf,
      (relaxAll cum ns unv ovf).1.map Prod.fst = unv.map Prod.fst
  | [], unv, ovf => rfl
  | (t, w) :: ns, unv, ovf => by
    rcases hr : relaxOne t ((w + cum) % 2 ^ 64) unv with _ | unv2
    · rw [relaxAll_cons_none cum t w ns unv ovf hr]
      exact relaxAll_map cum ns unv ovf
    · rw [relaxAll_cons_some cum t w ns unv unv2 ovf hr,
        relaxAll_map cum ns unv2 _, relaxOne_some_map _ _ unv unv2 hr]

lemma relaxAll_provenance (cum : Nat) :
    ∀ (ns : List (Nat × Nat)) unv ovf, ∀ q ∈ (relaxAll cum ns unv ovf).1,
      ∃ d0, (q.1, d0) ∈ unv ∧ q.2 ≤ d0 ∧
        (q.2 = d0 ∨ ∃ tw ∈ ns, q.1 = tw.1 ∧ q.2 = (tw.2 + cum) % 2 ^ 64)
  | [], unv, ovf => by
    intro q hq
    exact ⟨q.2, by rwa [Prod.mk.eta], le_rfl, Or.inl rfl⟩
  | (t, w) :: ns, unv, ovf => by
    intro q hq
    rcases hr : relaxOne t ((w + cum) % 2 ^ 64) unv with _ | unv2
    · rw [relaxAll_cons_none cum t w ns unv ovf hr] at hq
      obtain ⟨d0, hd0, hle, hor⟩ := relaxAll_provenance cum ns unv ovf q hq
      refine ⟨d0, hd0, hle, ?_⟩
      rcases hor with h | ⟨tw, htw, h1, h2⟩
      · exact Or.inl h
      · exact Or.inr ⟨tw, List.mem_cons_of_mem _ htw, h1, h2⟩
    · rw [relaxAll_cons_some cum t w ns unv unv2 ovf hr] at hq
      obtain ⟨d1, hd1, hle1, hor1⟩ := relaxAll_provenance cum ns unv2 _ q hq
      obtain ⟨d0, hd0, hle0, hor0⟩ := relaxOne_provenance t _ unv unv2 hr (q.1, d1) hd1
      simp only at hle0 hor0
      refine ⟨d0, hd0, by omega, ?_⟩
      rcases hor1 with h1 | ⟨tw, htw, ha, hb⟩
      · rcases hor0 with h0 | ⟨h0a, h0b⟩
        · exact Or.inl (by omega)
        · exact Or.inr ⟨(t, w), List.mem_cons_self .., h0a, by omega⟩
      · exact Or.inr ⟨tw, List.mem_cons_of_mem _ htw, ha, hb⟩

lemma relaxAll_cover (cum : Nat) :
    ∀ (ns : List (Nat × Nat)) unv ovf, ∀ q0 ∈ unv,
      ∃ q ∈ (relaxAll cum ns unv ovf).1, q.1 = q0.1 ∧ q.2 ≤ q0.2
  | [], unv, ovf => by
    intro q0 hq0
    exact ⟨q0, hq0, rfl, le_rfl⟩
  | (t, w) :: ns, unv, ovf => by
    intro q0 hq0
    rcases hr : relaxOne t ((w + cum) % 2 ^ 64) unv with _ | unv2
    · rw [relaxAll_cons_none cum t w ns unv ovf hr]
      exact relaxAll_cover cum ns unv ovf q0 hq0
    · rw [relaxAll_cons_some cum t w ns unv unv2 ovf hr]
      obtain ⟨q1, hq1, ha, hb⟩ := relaxOne_cover t _ unv unv2 hr q0 hq0
      obtain ⟨q, hq, hc, hd⟩ := relaxAll_cover cum ns unv2 _ q1 hq1
      exact ⟨q, hq, hc.trans ha, hd.trans hb⟩

lemma relaxAll_bound (cum : Nat) :
    ∀ (ns : List (Nat × Nat)) unv ovf, (unv.map Prod.fst).Nodup →
      ∀ tw ∈ ns, ∀ q ∈ (relaxAll cum ns unv ovf).1, q.1 = tw.1 →
        q.2 ≤ (tw.2 + cum) % 2 ^ 64
  | [], unv, ovf => by simp
  | (t, w) :: ns, unv, ovf => by
    intro hnd tw htw q hq hqt
    rcases hr : relaxOne t ((w + cum) % 2 ^ 64) unv with _ | unv2
    · rw [relaxAll_cons_none cum t w ns unv ovf hr] at hq
      rcases List.mem_cons.1 htw with h | h
      · subst h
        have ht : t ∉ unv.map Prod.fst := (relaxOne_none_iff t _ unv).1 hr
        have hq1 : q.1 ∈ unv.map Prod.fst := by
          rw [← relaxAll_map cum ns unv ovf]
          exact List.mem_map.2 ⟨q, hq, rfl⟩
        rw [hqt] at hq1
        exact absurd hq1 ht
      · exact relaxAll_bound cum ns unv ovf hnd tw h q hq hqt
    · rw [relaxAll_cons_some cum t w ns unv unv2 ovf hr] at hq
      have hnd2 : (unv2.map Prod.fst).Nodup := by
        rw [relaxOne_some_map t _ unv unv2 hr]
        exact hnd
      rcases List.mem_cons.1 htw with h | h
      · subst h
        obtain ⟨d1, hd1, hle1, -⟩ := relaxAll_provenance cum ns unv2 _ q hq
        have hb1 : d1 ≤ (w + cum) % 2 ^ 64 :=
          relaxOne_bound t _ unv unv2 hnd hr (q.1, d1) hd1 hqt
        omega
      · exact relaxAll_bound cum ns unv2 _ hnd2 tw h q hq hqt

lemma relaxAll_ovf (cum : Nat) :
    ∀ (ns : List (Nat × Nat)) unv ovf,
      (relaxAll cum ns unv ovf).2 = true ↔
        ovf = true ∨ ∃ tw ∈ ns, tw.1 ∈ unv.map Prod.fst ∧ 2 ^ 64 ≤ tw.2 + cum
  | [], unv, ovf => by simp [relaxAll]
  | (t, w) :: ns, unv, ovf => by
    rcases hr : relaxOne t ((w + cum) % 2 ^ 64) unv with _ | unv2
    · rw [relaxAll_cons_none cum t w ns unv ovf hr,
        relaxAll_ovf cum ns unv ovf]
      have ht : t ∉ unv.map Prod.fst := (relaxOne_none_iff t _ unv).1 hr
      constructor
      · rintro (h | ⟨tw, htw, h1, h2⟩)
        · exact Or.inl h
        · exact Or.inr ⟨tw, List.mem_cons_of_mem _ htw, h1, h2⟩
      · rintro (h | ⟨tw, htw, h1, h2⟩)
        · exact Or.inl h
        · rcases List.mem_cons.1 htw with h3 | h3
          · subst h3
            exact absurd h1 ht
          · exact Or.inr ⟨tw, h3, h1, h2⟩
    · rw [relaxAll_cons_some cum t w ns unv unv2 ovf hr,
        relaxAll_ovf cum ns unv2 _]
      have ht : t ∈ unv.map Prod.fst := by
        by_contra hc
        rw [← relaxOne_none_iff t ((w + cum) % 2 ^ 64) unv] at hc
        rw [hc] at hr
        cases hr
      have hmap2 : unv2.map Prod.fst = unv.map Prod.fst :=
        relaxOne_some_map t _ unv unv2 hr
      rw [hmap2]
      constructor
      · rintro (h | ⟨tw, htw, h1, h2⟩)
        · rcases Bool.or_eq_true .. ▸ h with h3 | h3
          · exact Or.inl h3
          · exact Or.inr ⟨(t, w), List.mem_cons_self .., ht, of_decide_eq_true h3⟩
        · exact Or.inr ⟨tw, List.mem_cons_of_mem _ htw, h1, h2⟩
      · rintro (h | ⟨tw, htw, h1, h2⟩)
        · exact Or.inl (by rw [h]; rfl)
        · rcases List.mem_cons.1 htw with h3 | h3
          · refine Or.inl ?_
            have hd : decide (2 ^ 64 ≤ w + cum) = true := by
              rw [h3] at h2
              exact decide_eq_true h2
            rw [hd, Bool.or_true]
          · exact Or.inr ⟨tw, h3, h1, h2⟩

/-! ## The Dijkstra loop invariant -/

lemma pow64_eq : (2 : Nat) ^ 64 = 18446744073709551616 := by norm_num

lemma pow63_eq : (2 : Nat) ^ 63 = 9223372036854775808 := by norm_num

lemma UMAX_eq : UMAX = 18446744073709551615 := by rw [UMAX, pow64_eq]

lemma mem_map_fst {l : List (Nat × Nat)} {x : Nat} (h : x ∈ l.map Prod.fst) :
    ∃ d, (x, d) ∈ l := by
  obtain ⟨q, hq, hx⟩ := List.mem_map.1 h
  exact ⟨q.2, by rw [← hx, Prod.mk.eta]; exact hq⟩

lemma nodup_fst_unique {l : List (Nat × Nat)} {c d1 d2 : Nat}
    (hnd : (l.map Prod.fst).Nodup) (h1 : (c, d1) ∈ l) (h2 : (c, d2) ∈ l) :
    d1 = d2 := by
  have e1 := findEntry?_of_mem hnd h1
  have e2 := findEntry?_of_mem hnd h2
  rw [e1] at e2
  injection e2 with e3
  injection e3 with _ e4

lemma linksTo_weight_le {g : Graph} {a b w : Nat} (h : linksTo g a b w) :
    w ≤ totalWeight g := by
  have hmem : w ∈ g.edges.map fun e => e.2.2 := by
    rcases h with h | h
    · exact List.mem_map.2 ⟨(a, b, w), h, rfl⟩
    · exact List.mem_map.2 ⟨(b, a, w), h, rfl⟩
  exact List.single_le_sum (fun _ _ => Nat.zero_le _) w hmem

lemma reachable_lt_nodeCount {g : Graph} {s v : Nat} (hs : s < g.nodeCount)
    (h : Reachable g s v) : v < g.nodeCount := by
  have main : ∀ (steps : List (Nat × Nat)) (u : Nat), u < g.nodeCount →
      IsWalk g u steps → walkEnd u steps = v → v < g.nodeCount := by
    intro steps
    induction steps with
    | nil =>
      intro u hu _ he
      rw [walkEnd] at he
      omega
    | cons p rest ih =>
      intro u hu hw he
      obtain ⟨hl, hw2⟩ := hw
      exact ih p.1 (lt_nodeCount_of_linksTo (linksTo_symm hl)) hw2 he
  obtain ⟨steps, hw, he⟩ := h
  exact main steps s hs hw he

/-- Invariant of the Dijkstra loop while distances are trustworthy. -/
structure DInv (g : Graph) (s : Nat) (unv tree : List (Nat × Nat))
    (current : Nat) : Prop where
  perm : (unv.map Prod.fst ++ tree.map Prod.fst).Perm (List.range g.nodeCount)
  cur : unv ≠ [] → ∃ dc, (current, dc) ∈ unv ∧ ∀ p ∈ unv, dc ≤ p.2
  tree_sound : ∀ p ∈ tree, Reachable g s p.1 → IsShortestDist g s p.1 p.2
  unv_sound : ∀ p ∈ unv, p.2 ≠ UMAX → ∃ st, WalkFrom g s p.1 st ∧ walkWeight st = p.2
  frontier : ∀ p ∈ unv, ∀ q ∈ tree, ∀ wt, linksTo g q.1 p.1 wt → p.2 ≤ q.2 + wt
  src : s ∈ unv.map Prod.fst → (s, 0) ∈ unv

lemma DInv.nodup_unv {g : Graph} {s : Nat} {unv tree : List (Nat × Nat)}
    {current : Nat} (inv : DInv g s unv tree current) :
    (unv.map Prod.fst).Nodup := by
  have h := inv.perm.nodup_iff.2 (List.nodup_range _)
  exact h.of_append_left

/-- Boundary crossing: a walk from a finalized node to an unvisited node
crosses an edge from the finalized region into the unvisited region, at a
prefix cost bounded by the walk. -/
lemma walk_boundary (g : Graph) (s : Nat) (A B : List Nat)
    (hdisj : ∀ x ∈ A, x ∉ B)
    (hcov : ∀ x, x < g.nodeCount → x ∈ A ∨ x ∈ B) :
    ∀ (steps : List (Nat × Nat)) (u acc : Nat), u ∈ A → IsWalk g u steps →
      walkEnd u steps ∈ B → (∃ W, WalkFrom g s u W ∧ walkWeight W = acc) →
      ∃ a b wt, a ∈ A ∧ b ∈ B ∧ linksTo g a b wt ∧
        ∃ W, WalkFrom g s a W ∧ walkWeight W + wt ≤ acc + walkWeight steps
  | [], u, acc => by
    intro hA _ hB _
    rw [walkEnd] at hB
    exact absurd hB (hdisj u hA)
  | (v, w) :: rest, u, acc => by
    intro hA hwalk hB hW
    obtain ⟨hl, hwrest⟩ := hwalk
    have hv : v < g.nodeCount := lt_nodeCount_of_linksTo (linksTo_symm hl)
    by_cases hvB : v ∈ B
    · obtain ⟨W, hWf, hWw⟩ := hW
      refine ⟨u, v, w, hA, hvB, hl, W, hWf, ?_⟩
      rw [walkWeight_cons]
      omega
    · have hvA : v ∈ A := (hcov v hv).resolve_right hvB
      obtain ⟨W, hWf, hWw⟩ := hW
      have hW' : ∃ W', WalkFrom g s v W' ∧ walkWeight W' = acc + w := by
        refine ⟨W ++ [(v, w)], ⟨?_, ?_⟩, ?_⟩
        · rw [isWalk_append]
          exact ⟨hWf.1, by rw [hWf.2]; exact ⟨hl, trivial⟩⟩
        · rw [walkEnd_append, hWf.2]
          rfl
        · rw [walkWeight_append, hWw]
          simp [walkWeight]
      have hend : walkEnd v rest ∈ B := hB
      obtain ⟨a, b, wt, ha, hb, hab, W', hW'f, hW'w⟩ :=
        walk_boundary g s A B hdisj hcov rest v (acc + w) hvA hwrest hend hW'
      refine ⟨a, b, wt, ha, hb, hab, W', hW'f, ?_⟩
      rw [walkWeight_cons]
      omega

/-- The key Dijkstra argument: while an unvisited node is reachable, the
selected minimum entry carries the exact shortest distance of a reachable
node. -/
lemma dijkstra_key (g : Graph) (s : Nat) {unv tree : List (Nat × Nat)}
    {current : Nat} (inv : DInv g s unv tree current) (hne : unv ≠ [])
    (hs : s < g.nodeCount) (HW : totalWeight g < 2 ^ 63)
    (hex : ∃ p ∈ unv, Reachable g s p.1) :
    ∃ dc, (current, dc) ∈ unv ∧ (∀ p ∈ unv, dc ≤ p.2) ∧
      Reachable g s current ∧ IsShortestDist g s current dc ∧
      dc ≤ totalWeight g := by
  obtain ⟨dc, hdc, hmin⟩ := inv.cur hne
  set D : Set Nat :=
    {d | ∃ p, p ∈ unv ∧ Reachable g s p.1 ∧ IsShortestDist g s p.1 d} with hD
  obtain ⟨p0, hp0, hr0⟩ := hex
  obtain ⟨d0, hd0, hd0b⟩ := reachable_isShortest hr0
  have hDne : D.Nonempty := ⟨d0, p0, hp0, hr0, hd0⟩
  have hUmem := Nat.sInf_mem hDne
  obtain ⟨pm, hpm, hrm, hsm⟩ := hUmem
  have hDb : sInf D ≤ totalWeight g := by
    obtain ⟨dm, hdm, hdmb⟩ := reachable_isShortest hrm
    rw [isShortest_unique hsm hdm]
    exact hdmb
  have hdcmin : dc ≤ sInf D := by
    by_cases hsu : s ∈ unv.map Prod.fst
    · have h0 := inv.src hsu
      have := hmin (s, 0) h0
      omega
    · have hsT : s ∈ tree.map Prod.fst := by
        have hsr : s ∈ List.range g.nodeCount := List.mem_range.2 hs
        have := (inv.perm.mem_iff).2 hsr
        rcases List.mem_append.1 this with h | h
        · exact absurd h hsu
        · exact h
      obtain ⟨st, hstf, hstw⟩ := hsm.1
      have hdisj : ∀ x ∈ tree.map Prod.fst, x ∉ unv.map Prod.fst := by
        intro x hx hx2
        have hnd := inv.perm.nodup_iff.2 (List.nodup_range _)
        exact (List.disjoint_of_nodup_append hnd) hx2 hx
      have hcov : ∀ x, x < g.nodeCount →
          x ∈ tree.map Prod.fst ∨ x ∈ unv.map Prod.fst := by
        intro x hx
        have := (inv.perm.mem_iff).2 (List.mem_range.2 hx)
        rcases List.mem_append.1 this with h | h
        · exact Or.inr h
        · exact Or.inl h
      have hendB : walkEnd s st ∈ unv.map Prod.fst := by
        rw [hstf.2]
        exact List.mem_map.2 ⟨pm, hpm, rfl⟩
      obtain ⟨a, b, wt, ha, hb, hab, W, hWf, hWw⟩ :=
        walk_boundary g s (tree.map Prod.fst) (unv.map Prod.fst) hdisj hcov
          st s 0 hsT hstf.1 hendB ⟨[], ⟨trivial, rfl⟩, rfl⟩
      obtain ⟨da, hda⟩ := mem_map_fst ha
      obtain ⟨db, hdb⟩ := mem_map_fst hb
      have hrA : Reachable g s a := ⟨W, hWf⟩
      have hshortA := inv.tree_sound (a, da) hda hrA
      have hdaW : da ≤ walkWeight W := hshortA.2 W hWf
      have hfront := inv.frontier (b, db) hdb (a, da) hda wt hab
      have hdcdb := hmin (b, db) hdb
      simp only at hfront hdcdb hdaW
      rw [hstw] at hWw
      omega
  have hdcU : dc ≠ UMAX := by
    rw [UMAX_eq]
    rw [pow63_eq] at HW
    omega
  obtain ⟨stc, hstc, hstcw⟩ := inv.unv_sound (current, dc) hdc hdcU
  have hrc : Reachable g s current := ⟨stc, hstc⟩
  obtain ⟨dc', hdc', hdc'b⟩ := reachable_isShortest hrc
  have h1 : dc' ≤ dc := by
    have := hdc'.2 stc hstc
    omega
  have h2 : sInf D ≤ dc' := Nat.sInf_le ⟨(current, dc), hdc, hrc, hdc'⟩
  have hdceq : dc = dc' := by omega
  refine ⟨dc, hdc, hmin, hrc, ?_, by omega⟩
  rw [hdceq]
  exact hdc'

/-! ## Unwinding the Dijkstra loop -/

lemma dijkstraLoop_nil (g : Graph) (fuel : Nat) (tree : List (Nat × Nat))
    (current : Nat) (ovf : Bool) :
    dijkstraLoop g fuel [] tree current ovf = some (tree, ovf) := by
  cases fuel <;> rfl

lemma dijkstraLoop_step (g : Graph) (fuel : Nat) (unv tree : List (Nat × Nat))
    (current : Nat) (ovf : Bool) (hne : unv ≠ [])
    (cu : Nat × Nat) (hcu : findEntry? current unv = some cu)
    (j : Nat)
    (hj : position? current (relaxAll cu.2 (g.neighbors current) unv ovf).1 = some j)
    (entry : Nat × Nat)
    (hentry : (relaxAll cu.2 (g.neighbors current) unv ovf).1.get? j = some entry) :
    dijkstraLoop g (fuel + 1) unv tree current ovf =
      dijkstraLoop g fuel
        (swapRemove (relaxAll cu.2 (g.neighbors current) unv ovf).1 j)
        (tree ++ [entry])
        (match minEntry (swapRemove (relaxAll cu.2 (g.neighbors current) unv ovf).1 j) with
          | some m => m.1
          | none => current)
        (relaxAll cu.2 (g.neighbors current) unv ovf).2 := by
  conv_lhs => rw [dijkstraLoop]
  rw [if_neg hne, hcu]
  dsimp only
  rw [hj]
  dsimp only
  rw [hentry]

/-- Once every reachable node has been finalized, the loop just drains the
remaining entries (tree indices are a permutation, flag only latches). -/
lemma minEntry_choice_mem (l : List (Nat × Nat)) (c : Nat) (h : l ≠ []) :
    (match minEntry l with | some m => m.1 | none => c) ∈ l.map Prod.fst := by
  rcases l with _ | ⟨m0, ms⟩
  · exact absurd rfl h
  · rw [minEntry]
    exact List.mem_map.2 ⟨minFold m0 ms, (minFold_spec ms m0).1, rfl⟩

lemma dijkstraLoop_completes (g : Graph) :
    ∀ (fuel : Nat) (unv tree : List (Nat × Nat)) (current : Nat) (ovf : Bool),
      unv.length ≤ fuel → (unv ≠ [] → current ∈ unv.map Prod.fst) →
      ∃ rest ovf', dijkstraLoop g fuel unv tree current ovf = some (tree ++ rest, ovf') ∧
        (rest.map Prod.fst).Perm (unv.map Prod.fst) ∧ (ovf = true → ovf' = true)
  | fuel, [], tree, current, ovf => by
    intro _ _
    exact ⟨[], ovf, by rw [dijkstraLoop_nil]; simp, by simp, fun h => h⟩
  | 0, q :: unv', tree, current, ovf => by
    intro hlen; simp at hlen
  | fuel + 1, q :: unv', tree, current, ovf => by
    intro hlen hcur
    set unv : List (Nat × Nat) := q :: unv' with hunv
    have hne : unv ≠ [] := by simp [hunv]
    obtain ⟨cu, hcu⟩ := findEntry?_isSome (hcur hne)
    set res := relaxAll cu.2 (g.neighbors current) unv ovf with hres
    have hmap : res.1.map Prod.fst = unv.map Prod.fst := relaxAll_map ..
    have hcm : current ∈ res.1.map Prod.fst := by rw [hmap]; exact hcur hne
    obtain ⟨j, hj⟩ := position?_isSome hcm
    obtain ⟨entry, hget, hei⟩ := position?_spec current res.1 j hj
    have hstep := dijkstraLoop_step g fuel unv tree current ovf hne cu hcu j hj entry hget
    set unv3 := swapRemove res.1 j with hunv3
    have hperm3 : res.1.Perm (entry :: unv3) := swapRemove_perm res.1 j entry hget
    have hlen3 : unv3.length + 1 = unv.length := by
      have h1 := swapRemove_length res.1 j entry hget
      rw [← hunv3] at h1
      have h2 : res.1.length = unv.length := by
        have h2a := congrArg List.length hmap
        rwa [List.length_map, List.length_map] at h2a
      omega
    have hcur3 : unv3 ≠ [] →
        (match minEntry unv3 with | some m => m.1 | none => current) ∈
          unv3.map Prod.fst :=
      fun h3 => minEntry_choice_mem unv3 current h3
    obtain ⟨rest, ovf', hloop, hpermr, hsticky⟩ :=
      dijkstraLoop_completes g fuel unv3 (tree ++ [entry])
        (match minEntry unv3 with | some m => m.1 | none => current) res.2
        (by omega) hcur3
    refine ⟨entry :: rest, ovf', ?_, ?_, ?_⟩
    · rw [hstep, hloop]
      simp
    · have h1 : (entry :: rest).map Prod.fst = entry.1 :: rest.map Prod.fst := rfl
      rw [h1]
      have h2 : (entry.1 :: rest.map Prod.fst).Perm (entry.1 :: unv3.map Prod.fst) :=
        hpermr.cons entry.1
      refine h2.trans ?_
      have h3 : (res.1.map Prod.fst).Perm (entry.1 :: unv3.map Prod.fst) := by
        have := hperm3.map Prod.fst
        simpa using this
      exact (h3.symm).trans (by rw [hmap])
    · intro hovt
      apply hsticky
      rw [hres, relaxAll_ovf]
      exact Or.inl hovt

/-- Main induction for Dijkstra: while the invariant holds, the loop
finalizes every remaining node, recording exact shortest distances for the
reachable ones; if every remaining node is reachable, the overflow flag is
untouched. -/
lemma dijkstraLoop_phase1 (g : Graph) (s : Nat) (hs : s < g.nodeCount)
    (HW : totalWeight g < 2 ^ 63) :
    ∀ (fuel : Nat) (unv tree : List (Nat × Nat)) (current : Nat) (ovf : Bool),
      unv.length ≤ fuel → DInv g s unv tree current →
      ∃ rest ovf',
        dijkstraLoop g fuel unv tree current ovf = some (tree ++ rest, ovf') ∧
        (rest.map Prod.fst).Perm (unv.map Prod.fst) ∧
        (∀ p ∈ rest, Reachable g s p.1 → IsShortestDist g s p.1 p.2) ∧
        ((∀ p ∈ unv, Reachable g s p.1) → ovf' = ovf)
  | fuel, [], tree, current, ovf => by
    intro _ _
    exact ⟨[], ovf, by rw [dijkstraLoop_nil]; simp, by simp, by simp, fun _ => rfl⟩
  | 0, q :: unv', tree, current, ovf => by
    intro hlen _
    simp at hlen
  | fuel + 1, q :: unv', tree, current, ovf => by
    intro hlen inv
    set unv : List (Nat × Nat) := q :: unv' with hunv
    have hne : unv ≠ [] := by simp [hunv]
    by_cases hex : ∃ p ∈ unv, Reachable g s p.1
    · obtain ⟨dc, hdc, hmin, hreach, hshort, hdctot⟩ :=
        dijkstra_key g s inv hne hs HW hex
      have hnd : (unv.map Prod.fst).Nodup := inv.nodup_unv
      have hcu : findEntry? current unv = some (current, dc) :=
        findEntry?_of_mem hnd hdc
      set res := relaxAll dc (g.neighbors current) unv ovf with hres
      have hcand : ∀ tw ∈ g.neighbors current, tw.2 + dc < 2 ^ 64 := by
        intro tw htw
        have hlink : linksTo g current tw.1 tw.2 :=
          (mem_neighbors_iff ..).1 (by rwa [Prod.mk.eta])
        have h1 : tw.2 ≤ totalWeight g := linksTo_weight_le hlink
        have h64 : (2 : Nat) ^ 64 = 18446744073709551616 := pow64_eq
        have h63 : (2 : Nat) ^ 63 = 9223372036854775808 := pow63_eq
        omega
      have hres2 : res.2 = ovf := by
        have hiff := relaxAll_ovf dc (g.neighbors current) unv ovf
        rw [← hres] at hiff
        have h1 : res.2 = true ↔ ovf = true := by
          rw [hiff]
          constructor
          · rintro (h | ⟨tw, htw, -, hge⟩)
            · exact h
            · exact absurd hge (by have := hcand tw htw; omega)
          · exact Or.inl
        cases hb : res.2 <;> cases ho : ovf
        · rfl
        · rw [hb, ho] at h1
          simp at h1
        · rw [hb, ho] at h1
          simp at h1
        · rfl
      have hmap : res.1.map Prod.fst = unv.map Prod.fst := by
        rw [hres]
        exact relaxAll_map ..
      have hcm : current ∈ res.1.map Prod.fst := by
        rw [hmap]
        exact List.mem_map.2 ⟨(current, dc), hdc, rfl⟩
      obtain ⟨j, hj⟩ := position?_isSome hcm
      obtain ⟨entry, hget, hei⟩ := position?_spec current res.1 j hj
      have hentry_mem : entry ∈ res.1 := List.get?_mem hget
      have hprovE := relaxAll_provenance dc (g.neighbors current) unv ovf entry
        (by rw [← hres]; exact hentry_mem)
      have hent2 : entry.2 = dc := by
        obtain ⟨d0, hd0, hle, hor⟩ := hprovE
        rw [hei] at hd0
        have hd0dc : d0 = dc := nodup_fst_unique hnd hd0 hdc
        rcases hor with h | ⟨tw, htw, hq1, hq2⟩
        · omega
        · have hc := hcand tw htw
          have hmod : (tw.2 + dc) % 2 ^ 64 = tw.2 + dc := Nat.mod_eq_of_lt hc
          omega
      have hentry_eq : entry = (current, dc) := by
        rw [← hei, ← hent2]
      set unv3 := swapRemove res.1 j with hunv3
      have hperm3 : res.1.Perm (entry :: unv3) := by
        have h := swapRemove_perm res.1 j entry hget
        rwa [← hunv3] at h
      have hlen3 : unv3.length + 1 = unv.length := by
        have h1 := swapRemove_length res.1 j entry hget
        rw [← hunv3] at h1
        have h2 : res.1.length = unv.length := by
          have h2a := congrArg List.length hmap
          rwa [List.length_map, List.length_map] at h2a
        omega
      have hmem3 : ∀ p ∈ unv3, p ∈ res.1 :=
        fun p hp => (hperm3.mem_iff).2 (List.mem_cons_of_mem _ hp)
      have hprov : ∀ p ∈ unv3, ∃ d0, (p.1, d0) ∈ unv ∧ p.2 ≤ d0 ∧
          (p.2 = d0 ∨ ∃ tw ∈ g.neighbors current,
            p.1 = tw.1 ∧ p.2 = (tw.2 + dc) % 2 ^ 64) := by
        intro p hp
        exact relaxAll_provenance dc (g.neighbors current) unv ovf p
          (by rw [← hres]; exact hmem3 p hp)
      have hpermmap : (unv.map Prod.fst).Perm (current :: unv3.map Prod.fst) := by
        rw [← hmap]
        have h := hperm3.map Prod.fst
        simpa [hentry_eq] using h
      have hndr : (res.1.map Prod.fst).Nodup := by
        rw [hmap]
        exact hnd
      have hnd3 : (current :: unv3.map Prod.fst).Nodup := by
        have h := hperm3.map Prod.fst
        have := (List.Perm.nodup_iff h).1 hndr
        simpa [hentry_eq] using this
      set current2 :=
        (match minEntry unv3 with | some m => m.1 | none => current) with hcur2
      have inv3 : DInv g s unv3 (tree ++ [entry]) current2 := by
        refine ⟨?_, ?_, ?_, ?_, ?_, ?_⟩
        · rw [List.map_append, hentry_eq]
          have h1 : (unv3.map Prod.fst ++ (tree.map Prod.fst ++ [current])).Perm
              ((unv3.map Prod.fst ++ tree.map Prod.fst) ++ [current]) := by
            rw [List.append_assoc]
          have h2 : ((unv3.map Prod.fst ++ tree.map Prod.fst) ++ [current]).Perm
              (current :: (unv3.map Prod.fst ++ tree.map Prod.fst)) :=
            List.perm_append_singleton ..
          have h3 : (current :: (unv3.map Prod.fst ++ tree.map Prod.fst)).Perm
              (unv.map Prod.fst ++ tree.map Prod.fst) := by
            have := (hpermmap.symm).append_right (tree.map Prod.fst)
            simpa using this
          exact ((h1.trans h2).trans h3).trans inv.perm
        · intro h3
          rcases hm : minEntry unv3 with _ | m
          · rcases unv3 with _ | _
            · exact absurd rfl h3
            · rw [minEntry] at hm
              cases hm
          · obtain ⟨hmem, hmmin⟩ := minEntry_spec hm
            refine ⟨m.2, ?_, hmmin⟩
            rw [hcur2, hm]
            rwa [Prod.mk.eta]
        · intro p hp hr
          rcases List.mem_append.1 hp with h | h
          · exact inv.tree_sound p h hr
          · rw [List.mem_singleton] at h
            subst h
            rw [hentry_eq]
            exact hshort
        · intro p hp hpne
          obtain ⟨d0, hd0, hle, hor⟩ := hprov p hp
          rcases hor with h | ⟨tw, htw, hq1, hq2⟩
          · rw [h]
            exact inv.unv_sound (p.1, d0) hd0 (by rw [← h]; exact hpne)
          · have hc := hcand tw htw
            have hmod : (tw.2 + dc) % 2 ^ 64 = tw.2 + dc := Nat.mod_eq_of_lt hc
            obtain ⟨w0, hw0f, hw0w⟩ := hshort.1
            have hlink : linksTo g current tw.1 tw.2 :=
              (mem_neighbors_iff ..).1 (by rwa [Prod.mk.eta])
            refine ⟨w0 ++ [(tw.1, tw.2)], ⟨?_, ?_⟩, ?_⟩
            · rw [isWalk_append]
              exact ⟨hw0f.1, by rw [hw0f.2]; exact ⟨hlink, trivial⟩⟩
            · rw [walkEnd_append, hw0f.2, hq1]
              rfl
            · rw [walkWeight_append, hw0w, hq2, hmod]
              simp [walkWeight]
              omega
        · intro p hp qq hq wt hlk
          rcases List.mem_append.1 hq with h | h
          · obtain ⟨d0, hd0, hle, -⟩ := hprov p hp
            have := inv.frontier (p.1, d0) hd0 qq h wt hlk
            simp only at this
            omega
          · rw [List.mem_singleton] at h
            subst h
            rw [hentry_eq] at hlk ⊢
            simp only at hlk ⊢
            have hnb : (p.1, wt) ∈ g.neighbors current := (mem_neighbors_iff ..).2 hlk
            have hb := relaxAll_bound dc (g.neighbors current) unv ovf hnd
              (p.1, wt) hnb p (by rw [← hres]; exact hmem3 p hp) rfl
            have hc := hcand (p.1, wt) hnb
            have hmod : (wt + dc) % 2 ^ 64 = wt + dc := Nat.mod_eq_of_lt hc
            simp only at hb
            omega
        · intro hsu3
          have hsu : s ∈ unv.map Prod.fst := by
            rw [hpermmap.mem_iff]
            exact List.mem_cons_of_mem _ hsu3
          have hs0 := inv.src hsu
          obtain ⟨q2, hq2, hq21, hq22⟩ := relaxAll_cover dc (g.neighbors current) unv ovf (s, 0) hs0
          simp only at hq21 hq22
          have hq20 : q2.2 = 0 := by omega
          have hq2eq : q2 = (s, 0) := by
            rw [← hq21, ← hq20]
          rw [hq2eq] at hq2
          rw [← hres] at hq2
          rcases List.mem_cons.1 ((hperm3.mem_iff).1 hq2) with h | h
          · exfalso
            rw [hentry_eq] at h
            have hsc : s = current := by
              have := congrArg Prod.fst h
              simpa using this
            rw [hsc] at hsu3
            exact (List.nodup_cons.1 hnd3).1 hsu3
          · exact h
      have hstep := dijkstraLoop_step g fuel unv tree current ovf hne (current, dc)
        hcu j hj entry hget
      obtain ⟨rest, ovf', hloop, hpermr, hsound, hovf⟩ :=
        dijkstraLoop_phase1 g s hs HW fuel unv3 (tree ++ [entry]) current2 res.2
          (by omega) inv3
      refine ⟨entry :: rest, ovf', ?_, ?_, ?_, ?_⟩
      · rw [hstep]
        have hfix : (tree ++ [entry]) ++ rest = tree ++ (entry :: rest) := by simp
        rw [hfix] at hloop
        exact hloop
      · have h1 : (entry :: rest).map Prod.fst = entry.1 :: rest.map Prod.fst := rfl
        rw [h1, hentry_eq]
        exact ((hpermr.cons current).trans hpermmap.symm)
      · intro p hp hr
        rcases List.mem_cons.1 hp with h | h
        · subst h
          rw [hentry_eq]
          exact hshort
        · exact hsound p h hr
      · intro hall
        have hall3 : ∀ p ∈ unv3, Reachable g s p.1 := by
          intro p hp
          obtain ⟨d0, hd0, -, -⟩ := hprov p hp
          exact hall (p.1, d0) hd0
        rw [hovf hall3, hres2]
    · obtain ⟨dc0, hdc0, -⟩ := inv.cur hne
      have hcm : current ∈ unv.map Prod.fst := List.mem_map.2 ⟨(current, dc0), hdc0, rfl⟩
      obtain ⟨rest, ovf', hloop, hperm, -⟩ :=
        dijkstraLoop_completes g (fuel + 1) unv tree current ovf hlen fun _ => hcm
      refine ⟨rest, ovf', hloop, hperm, ?_, ?_⟩
      · intro p hp hr
        exfalso
        have hp1 : p.1 ∈ unv.map Prod.fst := by
          rw [← hperm.mem_iff]
          exact List.mem_map.2 ⟨p, hp, rfl⟩
        obtain ⟨d, hd⟩ := mem_map_fst hp1
        exact hex ⟨(p.1, d), hd, hr⟩
      · intro hall
        exfalso
        obtain ⟨p0, hp0⟩ := List.exists_mem_of_ne_nil unv hne
        exact hex ⟨p0, hp0, hall p0 hp0⟩

/-! ## C4: `dijkstra` top level -/

lemma dijkstra_eq (g : Graph) (s j : Nat)
    (hj : position? s ((List.range g.nodeCount).map fun i => (i, UMAX)) = some j) :
    dijkstra g s =
      dijkstraLoop g (((List.range g.nodeCount).map fun i => (i, UMAX)).set j (s, 0)).length
        (((List.range g.nodeCount).map fun i => (i, UMAX)).set j (s, 0)) [] s false := by
  rw [dijkstra]
  dsimp only
  rw [hj]

lemma unv0_map_fst (g : Graph) :
    (((List.range g.nodeCount).map fun i => (i, UMAX)).map Prod.fst) =
      List.range g.nodeCount := by
  rw [List.map_map]
  exact List.map_id _

lemma initial_state (g : Graph) (s : Nat) (hs : s < g.nodeCount) :
    ∃ j, position? s ((List.range g.nodeCount).map fun i => (i, UMAX)) = some j ∧
      (((List.range g.nodeCount).map fun i => (i, UMAX)).set j (s, 0)).map Prod.fst =
        List.range g.nodeCount ∧
      (s, 0) ∈ ((List.range g.nodeCount).map fun i => (i, UMAX)).set j (s, 0) ∧
      ∀ p ∈ ((List.range g.nodeCount).map fun i => (i, UMAX)).set j (s, 0),
        p = (s, 0) ∨ (p.2 = UMAX ∧ p.1 < g.nodeCount) := by
  set unv0 := (List.range g.nodeCount).map fun i => (i, UMAX) with hunv0
  have hsmem : s ∈ unv0.map Prod.fst := by
    rw [hunv0, unv0_map_fst]
    exact List.mem_range.2 hs
  obtain ⟨j, hj⟩ := position?_isSome hsmem
  obtain ⟨q, hq, hq1⟩ := position?_spec s unv0 j hj
  have hqU : q = (s, UMAX) := by
    have hqm : q ∈ unv0 := List.get?_mem hq
    rw [hunv0] at hqm
    obtain ⟨i, -, hqi⟩ := List.mem_map.1 hqm
    rw [← hq1, ← hqi]
  have hjlen : (unv0.map Prod.fst).get? j = some s := by
    rw [List.get?_map, hq]
    exact congrArg some hq1
  refine ⟨j, hj, ?_, ?_, ?_⟩
  · have hmapset : (unv0.set j (s, 0)).map Prod.fst = (unv0.map Prod.fst).set j s := by
      rw [List.map_set]
    rw [hmapset, set_same _ j s hjlen, hunv0, unv0_map_fst]
  · have hset : (unv0.set j (s, 0)).get? j = some (s, 0) := by
      rw [List.get?_set_eq, hq]
      rfl
    exact List.get?_mem hset
  · intro p hp
    rcases List.mem_or_eq_of_mem_set hp with h | h
    · rw [hunv0] at h
      obtain ⟨i, hi, hpi⟩ := List.mem_map.1 h
      right
      rw [← hpi]
      exact ⟨rfl, List.mem_range.1 hi⟩
    · exact Or.inl h

/-- A graph whose two edges each weigh `2 ^ 63`: summing them overflows. -/
def gHuge : Graph := ⟨[(0, 1, 2 ^ 63), (1, 2, 2 ^ 63)]⟩

/-- CX4 counterexample: on `gHuge`, node 2 is reachable from 0, yet `dijkstra`
reports distance 0 for it (the true shortest distance is `2 ^ 64`, which wraps
to 0 in the `usize` addition), so the claim's unqualified shortest-distance
contract fails; an overflow-freedom bound is needed. -/
theorem dijkstra_counterexample :
    Reachable gHuge 0 2 ∧
    dijkstra gHuge 0 = some ([(0, 0), (1, 2 ^ 63), (2, 0)], true) ∧
    ¬ IsShortestDist gHuge 0 2 0 := by
  refine ⟨⟨[(1, 2 ^ 63), (2, 2 ^ 63)], ⟨Or.inl (by decide), Or.inl (by decide), trivial⟩,
      rfl⟩, by decide, ?_⟩
  rintro ⟨⟨st, ⟨hw, he⟩, hwt⟩, -⟩
  rcases st with _ | ⟨⟨v, w⟩, rest⟩
  · exact absurd he (by decide)
  · obtain ⟨hl, -⟩ := hw
    have hw63 : w = 2 ^ 63 := by
      rcases hl with h | h <;>
        simp only [gHuge, List.mem_cons, List.not_mem_nil, or_false,
          Prod.mk.injEq] at h <;> omega
    rw [walkWeight_cons] at hwt
    omega

/-- C4 (corrected by an overflow-freedom bound): when the source index is a
node and the total edge weight fits in 63 bits — so no relaxation can reach
the `usize::MAX` sentinel — `dijkstra` returns one entry per node, and every
node reachable from the source carries exactly its shortest distance (0 for
the source itself). -/
theorem dijkstra_amended (g : Graph) (s : Nat) (hs : s < g.nodeCount)
    (HW : totalWeight g < 2 ^ 63) :
    ∃ tree ovf, dijkstra g s = some (tree, ovf) ∧
      (tree.map Prod.fst).Perm (List.range g.nodeCount) ∧
      ∀ v, Reachable g s v →
        ∃ d, (v, d) ∈ tree ∧ IsShortestDist g s v d ∧ (v = s → d = 0) := by
  obtain ⟨j, hj, hmap, hmem, hchar⟩ := initial_state g s hs
  set unv1 := ((List.range g.nodeCount).map fun i => (i, UMAX)).set j (s, 0) with hunv1
  have inv : DInv g s unv1 [] s := by
    refine ⟨?_, ?_, ?_, ?_, ?_, ?_⟩
    · rw [List.map_nil, List.append_nil, hmap]
    · intro _
      exact ⟨0, hmem, fun p _ => Nat.zero_le _⟩
    · intro p hp
      exact absurd hp (List.not_mem_nil p)
    · intro p hp hne
      rcases hchar p hp with h | h
      · rw [h]
        exact ⟨[], ⟨trivial, rfl⟩, rfl⟩
      · exact absurd h.1 hne
    · intro p _ q hq
      exact absurd hq (List.not_mem_nil q)
    · intro _
      exact hmem
  obtain ⟨rest, ovf', hloop, hperm, hsound, -⟩ :=
    dijkstraLoop_phase1 g s hs HW unv1.length unv1 [] s false le_rfl inv
  rw [List.nil_append] at hloop
  refine ⟨rest, ovf', ?_, ?_, ?_⟩
  · rw [dijkstra_eq g s j hj, ← hunv1]
    exact hloop
  · rw [← hmap]
    exact hperm
  · intro v hv
    have hvn : v < g.nodeCount := reachable_lt_nodeCount hs hv
    have hvmem : v ∈ rest.map Prod.fst := by
      apply hperm.mem_iff.2
      rw [hmap]
      exact List.mem_range.2 hvn
    obtain ⟨d, hd⟩ := mem_map_fst hvmem
    refine ⟨d, hd, hsound (v, d) hd hv, ?_⟩
    intro hveq
    have h0 : IsShortestDist g s v 0 := by
      rw [hveq]
      exact ⟨⟨[], ⟨trivial, rfl⟩, rfl⟩, fun st _ => Nat.zero_le _⟩
    exact isShortest_unique (hsound (v, d) hd hv) h0

/-- A triangle 0 – 1 – 2 with a heavy chord, for exercising `dijkstra`. -/
def gTri : Graph := ⟨[(0, 1, 2), (1, 2, 3), (0, 2, 10)]⟩

/-- C4 witness: on the triangle, the amended theorem applies and the concrete
run yields the expected shortest-path tree without overflow. -/
theorem dijkstra_amended_witness :
    dijkstra gTri 0 = some ([(0, 0), (1, 2), (2, 5)], false) ∧
    (0 < gTri.nodeCount ∧ totalWeight gTri < 2 ^ 63) ∧
    ∃ tree ovf, dijkstra gTri 0 = some (tree, ovf) ∧
      (tree.map Prod.fst).Perm (List.range gTri.nodeCount) ∧
      ∀ v, Reachable gTri 0 v →
        ∃ d, (v, d) ∈ tree ∧ IsShortestDist gTri 0 v d ∧ (v = 0 → d = 0) :=
  ⟨by decide, ⟨by decide, by decide⟩, dijkstra_amended gTri 0 (by decide) (by decide)⟩

/-! ## C10: overflow behaviour of the relaxation addition -/

/-- If some edge `a – b` of positive weight has both endpoints unreachable
from the source, the loop eventually selects one of them while its tentative
distance is still the `usize::MAX` sentinel, and the relaxation addition
`w + cum` overflows, latching the flag. -/
lemma dijkstraLoop_hits_overflow (g : Graph) (s a b wt : Nat)
    (hab : linksTo g a b wt) (hwt : 0 < wt)
    (hna : ¬ Reachable g s a) (hnb : ¬ Reachable g s b) :
    ∀ (fuel : Nat) (unv tree : List (Nat × Nat)) (current : Nat) (ovf : Bool),
      unv.length ≤ fuel →
      (unv ≠ [] → current ∈ unv.map Prod.fst) →
      (unv.map Prod.fst).Nodup →
      (∀ p ∈ unv, ¬ Reachable g s p.1 → p.2 = UMAX) →
      a ∈ unv.map Prod.fst → b ∈ unv.map Prod.fst →
      ∃ tree2, dijkstraLoop g fuel unv tree current ovf = some (tree2, true)
  | fuel, [], tree, current, ovf => by
    intro _ _ _ _ ham _
    simp at ham
  | 0, q :: unv', tree, current, ovf => by
    intro hlen
    simp at hlen
  | fuel + 1, q :: unv', tree, current, ovf => by
    intro hlen hcur hnd hUn ham hbm
    set unv : List (Nat × Nat) := q :: unv' with hunv
    have hne : unv ≠ [] := by simp [hunv]
    obtain ⟨cu, hcu⟩ := findEntry?_isSome (hcur hne)
    obtain ⟨hcumem, hcu1⟩ := findEntry?_some current unv cu hcu
    set res := relaxAll cu.2 (g.neighbors current) unv ovf with hres
    have hmap : res.1.map Prod.fst = unv.map Prod.fst := relaxAll_map ..
    have hcm : current ∈ res.1.map Prod.fst := by rw [hmap]; exact hcur hne
    obtain ⟨j, hj⟩ := position?_isSome hcm
    obtain ⟨entry, hget, hei⟩ := position?_spec current res.1 j hj
    have hstep := dijkstraLoop_step g fuel unv tree current ovf hne cu hcu j hj entry hget
    set unv3 := swapRemove res.1 j with hunv3
    have hperm3 : res.1.Perm (entry :: unv3) := swapRemove_perm res.1 j entry hget
    have hlen3 : unv3.length + 1 = unv.length := by
      have h1 := swapRemove_length res.1 j entry hget
      rw [← hunv3] at h1
      have h2 : res.1.length = unv.length := by
        have h2a := congrArg List.length hmap
        rwa [List.length_map, List.length_map] at h2a
      omega
    have hcur3 : unv3 ≠ [] →
        (match minEntry unv3 with | some m => m.1 | none => current) ∈
          unv3.map Prod.fst :=
      fun h3 => minEntry_choice_mem unv3 current h3
    by_cases hovt : res.2 = true
    · obtain ⟨rest, ovf', hloop, -, hsticky⟩ :=
        dijkstraLoop_completes g fuel unv3 (tree ++ [entry])
          (match minEntry unv3 with | some m => m.1 | none => current) res.2
          (by omega) hcur3
      refine ⟨tree ++ [entry] ++ rest, ?_⟩
      rw [hstep, hloop, hsticky hovt]
    · have hnoc : ∀ tw ∈ g.neighbors current, tw.1 ∈ unv.map Prod.fst →
          tw.2 + cu.2 < 2 ^ 64 := by
        intro tw htw htm
        by_contra hc
        push_neg at hc
        have h1 : res.2 = true := by
          rw [hres, relaxAll_ovf]
          exact Or.inr ⟨tw, htw, htm, hc⟩
        exact hovt h1
      have hcua : current ≠ a := by
        intro hca
        have hcuU : cu.2 = UMAX := hUn cu hcumem (by rw [hcu1, hca]; exact hna)
        have hbn : (b, wt) ∈ g.neighbors current :=
          (mem_neighbors_iff ..).2 (by rw [hca]; exact hab)
        have h1 := hnoc (b, wt) hbn hbm
        rw [hcuU, UMAX_eq, pow64_eq] at h1
        omega
      have hcub : current ≠ b := by
        intro hcb
        have hcuU : cu.2 = UMAX := hUn cu hcumem (by rw [hcu1, hcb]; exact hnb)
        have hba : linksTo g b a wt := Or.symm hab
        have han : (a, wt) ∈ g.neighbors current :=
          (mem_neighbors_iff ..).2 (by rw [hcb]; exact hba)
        have h1 := hnoc (a, wt) han ham
        rw [hcuU, UMAX_eq, pow64_eq] at h1
        omega
      have hmem3 : ∀ x, x ∈ unv.map Prod.fst → x ≠ current →
          x ∈ unv3.map Prod.fst := by
        intro x hx hxc
        have h1 : x ∈ res.1.map Prod.fst := by rw [hmap]; exact hx
        have h2 : x ∈ entry.1 :: unv3.map Prod.fst := by
          have := (hperm3.map Prod.fst).mem_iff.1 h1
          simpa using this
        rcases List.mem_cons.1 h2 with h3 | h3
        · exact absurd (h3.trans hei) hxc
        · exact h3
      have hnd3 : (unv3.map Prod.fst).Nodup := by
        have h1 : (res.1.map Prod.fst).Nodup := by rw [hmap]; exact hnd
        have h2 : (entry.1 :: unv3.map Prod.fst).Nodup := by
          have := ((hperm3.map Prod.fst).nodup_iff).1 h1
          simpa using this
        exact List.Nodup.of_cons h2
      have hUn3 : ∀ p ∈ unv3, ¬ Reachable g s p.1 → p.2 = UMAX := by
        intro p hp hnr
        have hpres : p ∈ res.1 := (hperm3.mem_iff).2 (List.mem_cons_of_mem _ hp)
        obtain ⟨d0, hd0, hle, hcases⟩ :=
          relaxAll_provenance cu.2 (g.neighbors current) unv ovf p hpres
        rcases hcases with heq | ⟨tw, htw, htw1, htw2⟩
        · rw [heq]
          exact hUn (p.1, d0) hd0 hnr
        · have hlink : linksTo g current tw.1 tw.2 :=
            (mem_neighbors_iff ..).1 (by rwa [Prod.mk.eta])
          have hcnr : ¬ Reachable g s current := by
            intro hrc
            exact hnr (htw1 ▸ (reachable_step hrc hlink))
          have hcuU : cu.2 = UMAX := hUn cu hcumem (by rw [hcu1]; exact hcnr)
          have htm : tw.1 ∈ unv.map Prod.fst := by
            rw [← htw1]
            exact List.mem_map.2 ⟨(p.1, d0), hd0, rfl⟩
          have hlt := hnoc tw htw htm
          rw [hcuU, UMAX_eq, pow64_eq] at hlt
          have htw0 : tw.2 = 0 := by omega
          rw [htw2, htw0, hcuU, Nat.zero_add]
          exact Nat.mod_eq_of_lt (by rw [UMAX_eq, pow64_eq]; omega)
      have ham3 : a ∈ unv3.map Prod.fst := hmem3 a ham (Ne.symm hcua)
      have hbm3 : b ∈ unv3.map Prod.fst := hmem3 b hbm (Ne.symm hcub)
      obtain ⟨tree2, hloop⟩ :=
        dijkstraLoop_hits_overflow g s a b wt hab hwt hna hnb fuel unv3
          (tree ++ [entry])
          (match minEntry unv3 with | some m => m.1 | none => current) res.2
          (by omega) hcur3 hnd3 hUn3 ham3 hbm3
      refine ⟨tree2, ?_⟩
      rw [hstep, hloop]

/-- C10 counterexample: on `gHuge` every node is reachable from source 0, yet
the relaxation addition still overflows (the run reports the latched flag),
because finite shortest distances themselves can exceed `usize`; reachability
alone does not make the addition safe. -/
theorem dijkstra_overflow_counterexample :
    (∀ v < gHuge.nodeCount, Reachable gHuge 0 v) ∧
    ∃ tree, dijkstra gHuge 0 = some (tree, true) := by
  constructor
  · intro v hv
    have h3 : gHuge.nodeCount = 3 := by decide
    rw [h3] at hv
    interval_cases v
    · exact reachable_refl _ _
    · exact ⟨[(1, 2 ^ 63)], ⟨Or.inl (by decide), trivial⟩, rfl⟩
    · exact ⟨[(1, 2 ^ 63), (2, 2 ^ 63)],
        ⟨Or.inl (by decide), Or.inl (by decide), trivial⟩, rfl⟩
  · exact ⟨[(0, 0), (1, 2 ^ 63), (2, 0)], by decide⟩

/-- C10 (corrected): the relaxation addition `edge_weight + current_distance`
stays below `2 ^ 64` when every node is reachable from the source AND the
total edge weight fits in 63 bits (so no finite distance nears the sentinel);
and conversely, whenever some positive-weight edge has an endpoint
unreachable from the source, the run does overflow — the unreachable node is
selected while still holding the `usize::MAX` sentinel. -/
theorem dijkstra_overflow_amended (g : Graph) (s : Nat) (hs : s < g.nodeCount) :
    ((∀ v < g.nodeCount, Reachable g s v) → totalWeight g < 2 ^ 63 →
      ∃ tree, dijkstra g s = some (tree, false)) ∧
    ((∃ a b wt, linksTo g a b wt ∧ 0 < wt ∧ ¬ Reachable g s a) →
      ∃ tree, dijkstra g s = some (tree, true)) := by
  obtain ⟨j, hj, hmap, hmem, hchar⟩ := initial_state g s hs
  set unv1 := ((List.range g.nodeCount).map fun i => (i, UMAX)).set j (s, 0) with hunv1
  constructor
  · intro hall HW
    have inv : DInv g s unv1 [] s := by
      refine ⟨?_, ?_, ?_, ?_, ?_, ?_⟩
      · rw [List.map_nil, List.append_nil, hmap]
      · intro _
        exact ⟨0, hmem, fun p _ => Nat.zero_le _⟩
      · intro p hp
        exact absurd hp (List.not_mem_nil p)
      · intro p hp hne
        rcases hchar p hp with h | h
        · rw [h]
          exact ⟨[], ⟨trivial, rfl⟩, rfl⟩
        · exact absurd h.1 hne
      · intro p _ q hq
        exact absurd hq (List.not_mem_nil q)
      · intro _
        exact hmem
    obtain ⟨rest, ovf', hloop, -, -, hflag⟩ :=
      dijkstraLoop_phase1 g s hs HW unv1.length unv1 [] s false le_rfl inv
    rw [List.nil_append] at hloop
    have hfl : ovf' = false := by
      apply hflag
      intro p hp
      have hp1 : p.1 ∈ unv1.map Prod.fst := List.mem_map.2 ⟨p, hp, rfl⟩
      rw [hmap] at hp1
      exact hall p.1 (List.mem_range.1 hp1)
    refine ⟨rest, ?_⟩
    rw [dijkstra_eq g s j hj, ← hunv1, hloop, hfl]
  · rintro ⟨a, b, wt, hab, hwt, hna⟩
    have hnb : ¬ Reachable g s b := fun hrb =>
      hna (reachable_step hrb (linksTo_symm hab))
    obtain ⟨tree2, hloop⟩ :=
      dijkstraLoop_hits_overflow g s a b wt hab hwt hna hnb
        unv1.length unv1 [] s false le_rfl
        (fun _ => by rw [hmap]; exact List.mem_range.2 hs)
        (by rw [hmap]; exact List.nodup_range _)
        (fun p hp hnr => by
          rcases hchar p hp with h | h
          · exact absurd (by rw [h]; exact reachable_refl g s) hnr
          · exact h.1)
        (by rw [hmap]; exact List.mem_range.2 (lt_nodeCount_of_linksTo hab))
        (by rw [hmap]
            exact List.mem_range.2 (lt_nodeCount_of_linksTo (linksTo_symm hab)))
    refine ⟨tree2, ?_⟩
    rw [dijkstra_eq g s j hj, ← hunv1, hloop]

/-- The disconnected graph of spec §3's parallel-component remark: the edge
2 – 3 is unreachable from node 0. -/
def gDisc : Graph := ⟨[(0, 1, 5), (2, 3, 4)]⟩

/-- C10 amended witness: on the triangle no overflow occurs; on the
disconnected graph the unreachable positive edge forces the overflow flag. -/
theorem dijkstra_overflow_amended_witness :
    (∃ tree, dijkstra gTri 0 = some (tree, false)) ∧
    (∃ tree, dijkstra gDisc 0 = some (tree, true)) := by
  constructor
  · refine (dijkstra_overflow_amended gTri 0 (by decide)).1 ?_ (by decide)
    intro v hv
    have h3 : gTri.nodeCount = 3 := by decide
    rw [h3] at hv
    interval_cases v
    · exact reachable_refl _ _
    · exact ⟨[(1, 2)], ⟨Or.inl (by decide), trivial⟩, rfl⟩
    · exact ⟨[(2, 10)], ⟨Or.inl (by decide), trivial⟩, rfl⟩
  · refine (dijkstra_overflow_amended gDisc 0 (by decide)).2
      ⟨2, 3, 4, Or.inl (by decide), by decide, ?_⟩
    rintro ⟨st, hw, he⟩
    have hstay : ∀ (steps : List (Nat × Nat)) (u : Nat), u = 0 ∨ u = 1 →
        IsWalk gDisc u steps → walkEnd u steps = 0 ∨ walkEnd u steps = 1 := by
      intro steps
      induction steps with
      | nil =>
        intro u hu _
        exact hu
      | cons p rest ih =>
        rcases p with ⟨v, w⟩
        intro u hu hw1
        obtain ⟨hl, hw2⟩ := hw1
        have hv1 : v = 0 ∨ v = 1 := by
          rcases hl with h | h <;>
            simp only [gDisc, List.mem_cons, List.not_mem_nil, or_false,
              Prod.mk.injEq] at h <;>
            omega
        exact ih v hv1 hw2
    have h2 := hstay st 0 (Or.inl rfl) hw
    rw [he] at h2
    rcases h2 with h | h <;> omega

/-! ## C3: the circuit extractor `find_cycle` -/

/-- Orientation-free normal form of an unordered node pair. -/
def norm2 (p : Nat × Nat) : Nat × Nat :=
  if p.1 ≤ p.2 then p else (p.2, p.1)

/-- The consecutive pairs of a node list. -/
def pairsOf : List Nat → List (Nat × Nat)
  | [] => []
  | [_] => []
  | a :: b :: t => (a, b) :: pairsOf (b :: t)

/-- The multiset of normalized consecutive pairs of a path. -/
def mpairs (l : List Nat) : Multiset (Nat × Nat) :=
  ((pairsOf l).map norm2 : List (Nat × Nat))

/-- The multiset of normalized pairs of an edge list. -/
def medges (E : List (Nat × Nat)) : Multiset (Nat × Nat) :=
  (E.map norm2 : List (Nat × Nat))

/-- Number of incidences of `v` in a multiset of pairs (a self pair counts
twice, matching `Graph.degree`). -/
def degM (M : Multiset (Nat × Nat)) (v : Nat) : Nat :=
  (M.map fun p => (if p.1 = v then 1 else 0) + (if p.2 = v then 1 else 0)).sum

lemma norm2_comm (a b : Nat) : norm2 (a, b) = norm2 (b, a) := by
  rw [norm2, norm2]
  dsimp only
  by_cases h1 : a ≤ b <;> by_cases h2 : b ≤ a <;>
    simp [h1, h2] <;> omega

lemma norm2_idem (p : Nat × Nat) : norm2 (norm2 p) = norm2 p := by
  rcases p with ⟨a, b⟩
  simp only [norm2]
  by_cases h1 : a ≤ b <;> simp [h1] <;> omega

lemma norm2_fst (a b : Nat) : (norm2 (a, b)).1 = a ∨ (norm2 (a, b)).1 = b := by
  rw [norm2]
  dsimp only
  by_cases h1 : a ≤ b <;> simp [h1]

lemma norm2_comps (c : Nat) (p : Nat × Nat) :
    ((norm2 p).1 = c ∨ (norm2 p).2 = c) ↔ (p.1 = c ∨ p.2 = c) := by
  rcases p with ⟨a, b⟩
  rw [norm2]
  dsimp only
  by_cases h1 : a ≤ b <;> simp [h1] <;> tauto

lemma norm2_ne (p : Nat × Nat) (h : p.1 ≠ p.2) : (norm2 p).1 ≠ (norm2 p).2 := by
  rcases p with ⟨a, b⟩
  rw [norm2]
  dsimp only
  by_cases h1 : a ≤ b <;> simp [h1] <;> omega

lemma degM_zero (v : Nat) : degM 0 v = 0 := rfl

lemma degM_add (M N : Multiset (Nat × Nat)) (v : Nat) :
    degM (M + N) v = degM M v + degM N v := by
  rw [degM, degM, degM, Multiset.map_add, Multiset.sum_add]

lemma degM_cons (p : Nat × Nat) (M : Multiset (Nat × Nat)) (v : Nat) :
    degM (p ::ₘ M) v =
      ((if p.1 = v then 1 else 0) + (if p.2 = v then 1 else 0)) + degM M v := by
  rw [degM, degM, Multiset.map_cons, Multiset.sum_cons]

lemma degM_norm2_cons (p : Nat × Nat) (M : Multiset (Nat × Nat)) (v : Nat) :
    degM (norm2 p ::ₘ M) v =
      ((if p.1 = v then 1 else 0) + (if p.2 = v then 1 else 0)) + degM M v := by
  rw [degM_cons]
  rcases p with ⟨a, b⟩
  rw [norm2]
  dsimp only
  by_cases h1 : a ≤ b <;> simp [h1] <;> omega

lemma degM_pos_of_mem {M : Multiset (Nat × Nat)} {p : Nat × Nat} {v : Nat}
    (hp : p ∈ M) (hv : p.1 = v ∨ p.2 = v) : 0 < degM M v := by
  obtain ⟨M', rfl⟩ := Multiset.exists_cons_of_mem hp
  rw [degM_cons]
  rcases hv with h | h <;> simp [h]

lemma mpairs_nil : mpairs [] = 0 := rfl

lemma mpairs_single (a : Nat) : mpairs [a] = 0 := rfl

lemma mpairs_cons₂ (a b : Nat) (t : List Nat) :
    mpairs (a :: b :: t) = norm2 (a, b) ::ₘ mpairs (b :: t) := rfl

lemma pairsOf_length : ∀ l : List Nat, l ≠ [] → (pairsOf l).length + 1 = l.length
  | [], h => absurd rfl h
  | [_], _ => rfl
  | a :: b :: t, _ => by
    rw [pairsOf]
    have := pairsOf_length (b :: t) (by simp)
    simp only [List.length_cons] at this ⊢
    omega

lemma pairsOf_mem : ∀ (l : List Nat) (p : Nat × Nat), p ∈ pairsOf l →
    p.1 ∈ l ∧ p.2 ∈ l
  | [], p => by simp [pairsOf]
  | [_], p => by simp [pairsOf]
  | a :: b :: t, p => by
    rw [pairsOf]
    intro hp
    rcases List.mem_cons.1 hp with h | h
    · rw [h]
      exact ⟨List.mem_cons_self .., List.mem_cons_of_mem _ (List.mem_cons_self ..)⟩
    · have := pairsOf_mem (b :: t) p h
      exact ⟨List.mem_cons_of_mem _ this.1, List.mem_cons_of_mem _ this.2⟩

lemma mpairs_append_last : ∀ (A : List Nat) (a x : Nat), A.getLast? = some a →
    mpairs (A ++ [x]) = norm2 (a, x) ::ₘ mpairs A
  | [], a, x => by simp
  | [c], a, x => by
    intro h
    have hc : a = c := by
      simp only [List.getLast?_singleton, Option.some.injEq] at h
      exact h.symm
    rw [hc]
    rfl
  | c :: d :: A', a, x => by
    intro h
    have h2 : (d :: A').getLast? = some a := by
      rwa [List.getLast?_cons_cons] at h
    have ih := mpairs_append_last (d :: A') a x h2
    show mpairs (c :: d :: (A' ++ [x])) = norm2 (a, x) ::ₘ mpairs (c :: d :: A')
    rw [mpairs_cons₂, mpairs_cons₂]
    have h3 : (d :: (A' ++ [x])) = (d :: A') ++ [x] := rfl
    rw [h3, ih, Multiset.cons_swap]

lemma ind_comm (a u : Nat) :
    (if a = u then (1 : Nat) else 0) = if u = a then 1 else 0 := by
  by_cases h : a = u
  · rw [if_pos h, if_pos h.symm]
  · rw [if_neg h, if_neg fun hc => h hc.symm]

/-- Parity of the incidence count of `u` in the consecutive pairs of a
nonempty list: odd exactly at one end (and even when both ends coincide). -/
lemma degM_mpairs_parity (u : Nat) : ∀ (a : Nat) (t : List Nat),
    degM (mpairs (a :: t)) u % 2 =
      ((if u = a then 1 else 0) +
        (if some u = (a :: t).getLast? then 1 else 0)) % 2
  | a, [] => by
    rw [mpairs_single]
    rw [degM_zero]
    simp only [List.getLast?_singleton, Option.some.injEq]
    by_cases h : u = a <;> simp [h]
  | a, b :: t => by
    rw [mpairs_cons₂, degM_norm2_cons]
    have ih := degM_mpairs_parity u b t
    rw [List.getLast?_cons_cons]
    rw [ind_comm a u, ind_comm b u]
    by_cases h1 : u = a <;> by_cases h2 : u = b <;>
      by_cases h3 : some u = (b :: t).getLast? <;>
      (first | rw [if_pos h1] | rw [if_neg h1]) <;>
      (first | rw [if_pos h2] at ih ⊢ | rw [if_neg h2] at ih ⊢) <;>
      (first | rw [if_pos h3] at ih ⊢ | rw [if_neg h3] at ih ⊢) <;>
      omega

lemma norm2_of_le {a b : Nat} (h : a ≤ b) : norm2 (a, b) = (a, b) := by
  rw [norm2]
  exact if_pos h

lemma norm2_of_gt {a b : Nat} (h : b < a) : norm2 (a, b) = (b, a) := by
  rw [norm2]
  exact if_neg (by omega)

/-- The inner edge-collection loop: with every already-collected pair led by
a node index at most `i` and every sub-`i` neighbor already represented, the
loop appends exactly one `(i, t)` pair per neighbor entry with `t > i`. -/
lemma collectInner_spec (i : Nat) :
    ∀ (ns acc : List (Nat × Nat)),
      (∀ p ∈ ns, p.1 ≠ i ∧ (p.1 < i → (p.1, i) ∈ acc)) →
      (∀ p ∈ acc, p.1 ≤ i) →
      collectInner i ns acc =
        acc ++ (ns.filter fun tw => decide (i < tw.1)).map fun tw => (i, tw.1)
  | [], acc => by
    intro _ _
    rw [collectInner]
    simp
  | (t, w) :: ns, acc => by
    intro hns hacc
    obtain ⟨hti, hlt⟩ := hns (t, w) (List.mem_cons_self ..)
    rw [collectInner]
    by_cases hcase : t < i
    · rw [if_pos (hlt hcase)]
      rw [collectInner_spec i ns acc (fun p hp => hns p (List.mem_cons_of_mem _ hp)) hacc]
      rw [List.filter_cons]
      have hd : ¬ ((fun tw : Nat × Nat => decide (i < tw.1)) (t, w) = true) := by
        simp
        omega
      rw [if_neg hd]
    · have hgt : i < t := by omega
      have hnmem : (t, i) ∉ acc := fun hc => by
        have := hacc (t, i) hc
        simp at this
        omega
      rw [if_neg hnmem]
      rw [collectInner_spec i ns (acc ++ [(i, t)])
        (fun p hp => by
          obtain ⟨h1, h2⟩ := hns p (List.mem_cons_of_mem _ hp)
          exact ⟨h1, fun hlt2 => List.mem_append_left _ (h2 hlt2)⟩)
        (fun p hp => by
          rcases List.mem_append.1 hp with h | h
          · exact hacc p h
          · simp at h
            rw [h])]
      rw [List.filter_cons]
      have hd : ((fun tw : Nat × Nat => decide (i < tw.1)) (t, w) = true) := by
        simp
        omega
      rw [if_pos hd, List.map_cons, List.append_assoc]
      rfl

/-- Per-edge contribution of the neighbor entries of an edge to the
collected pairs at node `i`. -/
lemma nbContrib (i a b w : Nat) (hne : a ≠ b) :
    ((((if a = i then [(b, w)] else []) ++
        (if b = i then [(a, w)] else [])).filter
          fun tw => decide (i < tw.1)).map fun tw => ((i : Nat), tw.1)) =
      (if (norm2 (a, b)).1 = i then [norm2 (a, b)] else []) := by
  by_cases h1 : a = i
  · subst h1
    rw [if_pos rfl, if_neg fun hc => hne hc.symm, List.append_nil]
    by_cases h3 : a < b
    · rw [norm2_of_le (le_of_lt h3)]
      simp [h3]
    · have hb : b < a := by omega
      rw [norm2_of_gt hb]
      simp [h3]
      omega
  · by_cases h2 : b = i
    · subst h2
      rw [if_neg h1, List.nil_append]
      by_cases h3 : a ≤ b
      · rw [norm2_of_le h3]
        simp [h1]
        omega
      · have hb : b < a := by omega
        rw [norm2_of_gt hb]
        simp [hb]
    · rw [if_neg h1, if_neg h2]
      by_cases h3 : a ≤ b
      · rw [norm2_of_le h3]
        simp [h1]
      · have hb : b < a := by omega
        rw [norm2_of_gt hb]
        simp [h2]

/-- The kept-and-mapped neighbor entries of node `i` are exactly the
normalized pairs of the edges whose smaller endpoint is `i`. -/
lemma neighbors_filter_map (i : Nat) :
    ∀ E : List E3, (∀ e ∈ E, e.1 ≠ e.2.1) →
      (((Graph.mk E).neighbors i).filter fun tw => decide (i < tw.1)).map
          (fun tw => ((i : Nat), tw.1)) =
        (E.filter fun e => decide ((norm2 (e.1, e.2.1)).1 = i)).map
          fun e => norm2 (e.1, e.2.1)
  | [] => by
    intro _
    rfl
  | e :: E => by
    intro hns
    have hcontrib := nbContrib i e.1 e.2.1 e.2.2 (hns e (List.mem_cons_self ..))
    have ih := neighbors_filter_map i E fun x hx => hns x (List.mem_cons_of_mem _ hx)
    have hnb : (Graph.mk (e :: E)).neighbors i =
        ((if e.1 = i then [(e.2.1, e.2.2)] else []) ++
          (if e.2.1 = i then [(e.1, e.2.2)] else [])) ++ (Graph.mk E).neighbors i := by
      simp [Graph.neighbors]
    rw [hnb, List.filter_append, List.map_append, hcontrib, ih, List.filter_cons]
    by_cases hq : (norm2 (e.1, e.2.1)).1 = i
    · rw [if_pos hq, if_pos (by simpa using hq), List.map_cons]
      rfl
    · rw [if_neg hq, if_neg (by simpa using hq), List.nil_append]

lemma neighbors_filter_map2 (g : Graph) (i : Nat)
    (hns : ∀ e ∈ g.edges, e.1 ≠ e.2.1) :
    ((g.neighbors i).filter fun tw => decide (i < tw.1)).map
        (fun tw => ((i : Nat), tw.1)) =
      (g.edges.filter fun e => decide ((norm2 (e.1, e.2.1)).1 = i)).map
        fun e => norm2 (e.1, e.2.1) := by
  obtain ⟨E⟩ := g
  exact neighbors_filter_map i E hns

lemma filter_lt_succ_perm (i : Nat) :
    ∀ E : List E3,
      ((E.filter fun e => decide ((norm2 (e.1, e.2.1)).1 < i + 1)).map
          fun e => norm2 (e.1, e.2.1)).Perm
        (((E.filter fun e => decide ((norm2 (e.1, e.2.1)).1 < i)).map
            fun e => norm2 (e.1, e.2.1)) ++
          ((E.filter fun e => decide ((norm2 (e.1, e.2.1)).1 = i)).map
            fun e => norm2 (e.1, e.2.1)))
  | [] => List.Perm.refl _
  | e :: E => by
    have ih := filter_lt_succ_perm i E
    rw [List.filter_cons, List.filter_cons, List.filter_cons]
    by_cases h1 : (norm2 (e.1, e.2.1)).1 < i
    · rw [if_pos (by simp; omega), if_pos (by simpa using h1),
        if_neg (by simp; omega)]
      rw [List.map_cons, List.map_cons, List.cons_append]
      exact ih.cons _
    · by_cases h2 : (norm2 (e.1, e.2.1)).1 = i
      · rw [if_pos (by simp; omega), if_neg (by simpa using h1),
          if_pos (by simpa using h2)]
        rw [List.map_cons, List.map_cons]
        exact (ih.cons _).trans List.perm_middle.symm
      · rw [if_neg (by simp; omega), if_neg (by simpa using h1),
          if_neg (by simpa using h2)]
        exact ih

/-- Outer collection loop over the node range: the accumulator sweeps up the
normalized pairs of all edges whose smaller endpoint is below the bound. -/
lemma collectLoop_spec (g : Graph) (hns : ∀ e ∈ g.edges, e.1 ≠ e.2.1) :
    ∀ (k i : Nat) (acc : List (Nat × Nat)),
      (↑acc : Multiset (Nat × Nat)) =
        ↑((g.edges.filter fun e => decide ((norm2 (e.1, e.2.1)).1 < i)).map
            fun e => norm2 (e.1, e.2.1)) →
      (↑(collectLoop g (List.range' i k) acc) : Multiset (Nat × Nat)) =
        ↑((g.edges.filter fun e => decide ((norm2 (e.1, e.2.1)).1 < i + k)).map
            fun e => norm2 (e.1, e.2.1))
  | 0, i, acc => by
    intro hacc
    rw [show List.range' i 0 = [] from rfl, collectLoop, hacc, Nat.add_zero]
  | k + 1, i, acc => by
    intro hacc
    have hmem : ∀ q, q ∈ acc ↔
        q ∈ (g.edges.filter fun e => decide ((norm2 (e.1, e.2.1)).1 < i)).map
          fun e => norm2 (e.1, e.2.1) := fun q => by
      rw [← Multiset.mem_coe, hacc, Multiset.mem_coe]
    have hskip : ∀ p ∈ g.neighbors i, p.1 ≠ i ∧ (p.1 < i → (p.1, i) ∈ acc) := by
      rintro ⟨t, w⟩ hp
      have hlink : linksTo g i t w := (mem_neighbors_iff ..).1 hp
      constructor
      · intro hti
        dsimp only at hti
        subst hti
        rcases hlink with h | h
        · exact hns _ h rfl
        · exact hns _ h rfl
      · intro hti
        dsimp only at hti ⊢
        apply (hmem (t, i)).2
        rcases hlink with h | h
        · refine List.mem_map.2 ⟨(i, t, w), List.mem_filter.2 ⟨h, ?_⟩, ?_⟩
          · rw [norm2_of_gt hti]
            simp
            omega
          · rw [norm2_of_gt hti]
        · refine List.mem_map.2 ⟨(t, i, w), List.mem_filter.2 ⟨h, ?_⟩, ?_⟩
          · rw [norm2_of_le (le_of_lt hti)]
            simp
            omega
          · rw [norm2_of_le (le_of_lt hti)]
    have hle : ∀ p ∈ acc, p.1 ≤ i := by
      intro p hp
      obtain ⟨e, he, hpe⟩ := List.mem_map.1 ((hmem p).1 hp)
      have := List.mem_filter.1 he
      rw [← hpe]
      have h2 := this.2
      simp at h2
      omega
    rw [show List.range' i (k + 1) = i :: List.range' (i + 1) k from rfl, collectLoop]
    rw [collectInner_spec i (g.neighbors i) acc hskip hle]
    have hacc2 : (↑(acc ++ ((g.neighbors i).filter fun tw => decide (i < tw.1)).map
        fun tw => ((i : Nat), tw.1)) : Multiset (Nat × Nat)) =
        ↑((g.edges.filter fun e => decide ((norm2 (e.1, e.2.1)).1 < i + 1)).map
            fun e => norm2 (e.1, e.2.1)) := by
      rw [neighbors_filter_map2 g i hns, ← Multiset.coe_add, hacc, Multiset.coe_add]
      exact (Multiset.coe_eq_coe.2 (filter_lt_succ_perm i g.edges)).symm
    rw [collectLoop_spec g hns k (i + 1) _ hacc2]
    rw [show i + 1 + k = i + (k + 1) by omega]

/-- With no self-loops, the collected edge list holds exactly the normalized
endpoint pair of every edge, with multiplicity. -/
lemma collectEdges_char (g : Graph) (hns : ∀ e ∈ g.edges, e.1 ≠ e.2.1) :
    (↑(collectEdges g) : Multiset (Nat × Nat)) =
      ↑(g.edges.map fun e => norm2 (e.1, e.2.1)) := by
  rw [collectEdges, List.range_eq_range']
  have h0 : (↑([] : List (Nat × Nat)) : Multiset (Nat × Nat)) =
      ↑((g.edges.filter fun e => decide ((norm2 (e.1, e.2.1)).1 < 0)).map
          fun e => norm2 (e.1, e.2.1)) := by
    have : (g.edges.filter fun e => decide ((norm2 (e.1, e.2.1)).1 < 0)) = [] := by
      simp
    rw [this, List.map_nil]
  rw [collectLoop_spec g hns g.nodeCount 0 [] h0]
  have hall : (g.edges.filter fun e =>
      decide ((norm2 (e.1, e.2.1)).1 < 0 + g.nodeCount)) = g.edges := by
    apply List.filter_eq_self.2
    intro e he
    have h1 := endpoint_lt_nodeCount g e he
    rcases norm2_fst e.1 e.2.1 with h | h <;> simp [h] <;> omega
  rw [hall]

lemma ind_norm2 (v a b : Nat) :
    ((if (norm2 (a, b)).1 = v then (1 : Nat) else 0) +
      (if (norm2 (a, b)).2 = v then 1 else 0)) =
      ((if a = v then (1 : Nat) else 0) + (if b = v then 1 else 0)) := by
  rw [norm2]
  by_cases h1 : a ≤ b
  · rw [if_pos h1]
  · rw [if_neg h1]
    dsimp only
    omega

/-- `medges` of the collected list is the normalized edge multiset of `g`. -/
lemma medges_collectEdges (g : Graph) (hns : ∀ e ∈ g.edges, e.1 ≠ e.2.1) :
    medges (collectEdges g) = ↑(g.edges.map fun e => norm2 (e.1, e.2.1)) := by
  rw [medges]
  have h1 : ((collectEdges g).map norm2 : Multiset (Nat × Nat)) =
      Multiset.map norm2 ↑(collectEdges g) := by
    rw [Multiset.map_coe]
  rw [h1, collectEdges_char g hns, Multiset.map_coe, List.map_map]
  congr 1
  apply List.map_congr_left
  intro e _
  exact norm2_idem _

/-- The incidence degree in the collected edge multiset agrees with the graph
degree. -/
lemma degM_medges_degree (g : Graph) (hns : ∀ e ∈ g.edges, e.1 ≠ e.2.1)
    (v : Nat) : degM (medges (collectEdges g)) v = g.degree v := by
  rw [medges_collectEdges g hns, degM, Multiset.map_coe, Multiset.sum_coe,
    List.map_map]
  have h2 : (⟨g.edges⟩ : Graph) = g := rfl
  rw [← h2, degree_mk]
  congr 1
  apply List.map_congr_left
  intro e _
  exact ind_norm2 v e.1 e.2.1

/-- Every pair in the collected list has distinct components. -/
lemma collectEdges_ne (g : Graph) (hns : ∀ e ∈ g.edges, e.1 ≠ e.2.1) :
    ∀ p ∈ collectEdges g, p.1 ≠ p.2 := by
  intro p hp
  have h1 : p ∈ (↑(collectEdges g) : Multiset (Nat × Nat)) := Multiset.mem_coe.2 hp
  rw [collectEdges_char g hns, Multiset.mem_coe] at h1
  obtain ⟨e, he, hpe⟩ := List.mem_map.1 h1
  rw [← hpe]
  exact norm2_ne _ (hns e he)

lemma mem_mpairs {R : List Nat} {q : Nat × Nat} (h : q ∈ mpairs R) :
    ∃ p ∈ pairsOf R, q = norm2 p := by
  rw [mpairs, Multiset.mem_coe] at h
  obtain ⟨p, hp, hq⟩ := List.mem_map.1 h
  exact ⟨p, hp, hq.symm⟩

/-- If the consumed pairs are the consecutive pairs of a node list `R` whose
members are all exhausted (no incidences left in `E`), and `0 ∈ R`, then by
connectivity nothing remains in `E`. -/
lemma terminal_empty (g : Graph) (hconn : Connected g)
    (E : List (Nat × Nat)) (R : List Nat)
    (heq : medges E + mpairs R = ↑(g.edges.map fun e => norm2 (e.1, e.2.1)))
    (hexh : ∀ u ∈ R, degM (medges E) u = 0)
    (h0 : (0 : Nat) ∈ R) : E = [] := by
  by_contra hne
  obtain ⟨e0, he0⟩ := List.exists_mem_of_ne_nil E hne
  have hmE : norm2 e0 ∈ medges E := by
    rw [medges, Multiset.mem_coe]
    exact List.mem_map.2 ⟨e0, he0, rfl⟩
  have hmT : norm2 e0 ∈
      (↑(g.edges.map fun e => norm2 (e.1, e.2.1)) : Multiset (Nat × Nat)) := by
    rw [← heq]
    exact Multiset.mem_add.2 (Or.inl hmE)
  rw [Multiset.mem_coe] at hmT
  obtain ⟨ed, hed, hpe⟩ := List.mem_map.1 hmT
  have hbound := endpoint_lt_nodeCount g ed hed
  have ha : (norm2 e0).1 < g.nodeCount := by
    have h5 : (norm2 e0).1 = ed.1 ∨ (norm2 e0).1 = ed.2.1 := by
      rw [← hpe]
      exact norm2_fst ed.1 ed.2.1
    rcases h5 with h | h <;> rw [h] <;> omega
  have hwalk : ∀ (steps : List (Nat × Nat)) (x : Nat), degM (medges E) x = 0 →
      IsWalk g x steps → degM (medges E) (walkEnd x steps) = 0 := by
    intro steps
    induction steps with
    | nil =>
      intro x hx _
      exact hx
    | cons p rest ih =>
      rcases p with ⟨t, w⟩
      intro x hx hw
      obtain ⟨hl, hw2⟩ := hw
      have hmemT : norm2 (x, t) ∈
          (↑(g.edges.map fun e => norm2 (e.1, e.2.1)) : Multiset (Nat × Nat)) := by
        rw [Multiset.mem_coe]
        rcases hl with h | h
        · exact List.mem_map.2 ⟨(x, t, w), h, rfl⟩
        · exact List.mem_map.2 ⟨(t, x, w), h, norm2_comm t x⟩
      rw [← heq] at hmemT
      rcases Multiset.mem_add.1 hmemT with hE | hR
      · exfalso
        have hpos := degM_pos_of_mem hE ((norm2_comps x (x, t)).2 (Or.inl rfl))
        omega
      · obtain ⟨p, hp, hqp⟩ := mem_mpairs hR
        have h6 : (norm2 (x, t)).1 = t ∨ (norm2 (x, t)).2 = t :=
          (norm2_comps t (x, t)).2 (Or.inr rfl)
        rw [hqp] at h6
        have h7 : p.1 = t ∨ p.2 = t := (norm2_comps t p).1 h6
        obtain ⟨hp1, hp2⟩ := pairsOf_mem R p hp
        have htR : t ∈ R := by
          rcases h7 with h | h <;> rw [← h] <;> assumption
        exact ih t (hexh t htR) hw2
  obtain ⟨st, hst, hend⟩ := hconn _ ha
  have hfin := hwalk st 0 (hexh 0 h0) hst
  rw [hend] at hfin
  have hpos := degM_pos_of_mem hmE (Or.inl rfl)
  omega

lemma hierLoop_stack_nil (fuel : Nat) (edges : List (Nat × Nat))
    (path : List Nat) : hierLoop fuel edges [] path = path := by
  cases fuel
  · rw [hierLoop]
  · rw [hierLoop]

lemma hierLoop_pop (fuel : Nat) (edges : List (Nat × Nat)) (v : Nat)
    (rest path : List Nat)
    (h : edges.filter (fun e => decide (e.1 = v) || decide (e.2 = v)) = []) :
    hierLoop (fuel + 1) edges (v :: rest) path =
      hierLoop fuel edges rest (path ++ [v]) := by
  rw [hierLoop, h]

lemma hierLoop_push (fuel : Nat) (edges : List (Nat × Nat)) (v : Nat)
    (rest path : List Nat) (chosen : Nat × Nat) (tl : List (Nat × Nat))
    (h : edges.filter (fun e => decide (e.1 = v) || decide (e.2 = v)) =
      chosen :: tl) :
    hierLoop (fuel + 1) edges (v :: rest) path =
      hierLoop fuel (swapRemove edges (edges.findIdx fun e => e == chosen))
        ((if chosen.1 = v then chosen.2 else chosen.1) :: v :: rest) path := by
  rw [hierLoop, h]

lemma findIdx_beq_get : ∀ (E : List (Nat × Nat)) (c : Nat × Nat), c ∈ E →
    E.get? (E.findIdx fun e => e == c) = some c
  | [], c => by simp
  | e :: E, c => by
    intro hc
    rw [List.findIdx_cons]
    by_cases he : (e == c) = true
    · rw [he]
      have := eq_of_beq he
      rw [this]
      rfl
    · rw [Bool.eq_false_iff.2 he]
      have hcE : c ∈ E := by
        rcases List.mem_cons.1 hc with h | h
        · exfalso
          exact he (by rw [h]; exact beq_self_eq_true e)
        · exact h
      simpa using findIdx_beq_get E c hcE

lemma degM_medges_eq_zero_iff (E : List (Nat × Nat)) (v : Nat) :
    degM (medges E) v = 0 ↔
      E.filter (fun e => decide (e.1 = v) || decide (e.2 = v)) = [] := by
  induction E with
  | nil => simp [medges, degM]
  | cons e E ih =>
    have h1 : medges (e :: E) = norm2 e ::ₘ medges E := rfl
    rw [h1]
    have h2 : norm2 e = norm2 (e.1, e.2) := rfl
    rw [h2, degM_norm2_cons, List.filter_cons]
    by_cases hv : e.1 = v ∨ e.2 = v
    · constructor
      · intro h
        exfalso
        rcases hv with h2 | h2
        · rw [if_pos h2] at h
          omega
        · rw [if_pos h2] at h
          omega
      · intro h
        exfalso
        have hc : ((decide (e.1 = v) || decide (e.2 = v)) = true) := by
          rcases hv with h2 | h2 <;> simp [h2]
        rw [if_pos hc] at h
        cases h
    · push_neg at hv
      have hc : ¬ ((decide (e.1 = v) || decide (e.2 = v)) = true) := by
        simp [hv.1, hv.2]
      rw [if_neg hc, if_neg hv.1, if_neg hv.2]
      simpa using ih

lemma cons_add_swap (c : Nat × Nat) (A B : Multiset (Nat × Nat)) :
    (c ::ₘ A) + B = A + (c ::ₘ B) := by
  simp only [← Multiset.singleton_add]
  abel

/-- Main induction for Hierholzer's algorithm as implemented: with the
stack/path invariant in force, the loop consumes every remaining edge and
emits a closed circuit through node 0. -/
lemma hier_main (g : Graph) (T : List (Nat × Nat)) (hconn : Connected g)
    (hchar : medges T = ↑(g.edges.map fun e => norm2 (e.1, e.2.1)))
    (hdeg : ∀ u, degM (medges T) u = g.degree u)
    (heven : ∀ u, g.degree u % 2 = 0) :
    ∀ (fuel : Nat) (E : List (Nat × Nat)) (S P : List Nat),
      2 * E.length + S.length ≤ fuel →
      (∀ u ∈ P, degM (medges E) u = 0) →
      S ≠ [] → S.getLast? = some 0 →
      ((P = [] ∧ medges E + mpairs S = medges T) ∨
        (P.head? = some 0 ∧ ∃ y, medges E + mpairs S + mpairs (P ++ [y]) = medges T)) →
      ∃ Q, hierLoop fuel E S P = P ++ Q ∧ Q ≠ [] ∧ Q.getLast? = some 0 ∧
        (P = [] → Q.head? = some 0) ∧ mpairs (P ++ Q) = medges T
  | 0, E, S, P => by
    intro hlen _ hSne _ _
    exfalso
    rcases S with _ | ⟨v, rest⟩
    · exact hSne rfl
    · simp at hlen
  | fuel + 1, E, S, P => by
    intro hlen hPexh hSne hSlast hphase
    rcases S with _ | ⟨v, rest⟩
    · exact absurd rfl hSne
    rcases hfilt : E.filter (fun e => decide (e.1 = v) || decide (e.2 = v)) with _ | ⟨chosen, tl⟩
    · -- pop: the stack front has no incident edge left
      have hv0 : degM (medges E) v = 0 := (degM_medges_eq_zero_iff E v).2 hfilt
      have hSpar := degM_mpairs_parity v v rest
      rw [if_pos rfl] at hSpar
      rcases hphase with ⟨hP, heq⟩ | ⟨hPh, y, heq⟩
      · -- phase 1: no pops have happened yet; parity forces v = 0
        have hdeg2 : degM (medges E) v + degM (mpairs (v :: rest)) v =
            degM (medges T) v := by
          rw [← degM_add, heq]
        have hvz : v = 0 := by
          by_contra hvz
          have hne2 : ¬ (some v = (v :: rest).getLast?) := by
            rw [hSlast]
            simp
            exact hvz
          rw [if_neg hne2] at hSpar
          have he := heven v
          rw [← hdeg v] at he
          omega
        subst hvz
        subst hP
        rcases rest with _ | ⟨r, rest2⟩
        · -- the stack is exhausted at the bottom: the graph must be consumed
          have hE : E = [] := by
            apply terminal_empty g hconn E [0]
            · rw [← hchar, ← heq]
            · intro u hu
              rcases List.mem_singleton.1 hu
              exact hv0
            · exact List.mem_singleton.2 rfl
          refine ⟨[0], ?_, by simp, by simp, fun _ => rfl, ?_⟩
          · rw [hierLoop_pop fuel E 0 [] [] hfilt, hierLoop_stack_nil]
          · rw [List.nil_append, ← heq, hE, show medges [] = 0 from rfl, zero_add]
        · -- first pop: enter phase 2 with ghost endpoint `r`
          have hrec := hier_main g T hconn hchar hdeg heven fuel E (r :: rest2) [0]
            (by simp at hlen ⊢; omega)
            (by
              intro u hu
              rcases List.mem_singleton.1 hu
              exact hv0)
            (by simp)
            (by rwa [List.getLast?_cons_cons] at hSlast)
            (Or.inr ⟨rfl, r, by
              rw [← heq, mpairs_cons₂]
              rw [show ([0] ++ [r] : List Nat) = [0, r] from rfl, mpairs_cons₂,
                mpairs_single]
              simp only [← Multiset.singleton_add]
              abel⟩)
          obtain ⟨Q2, hQeq, hQne, hQlast, -, hQpairs⟩ := hrec
          refine ⟨0 :: Q2, ?_, by simp, ?_, fun _ => rfl, ?_⟩
          · rw [hierLoop_pop fuel E 0 (r :: rest2) [] hfilt]
            simp only [List.nil_append] at hQeq ⊢
            rw [hQeq]
            rfl
          · rcases Q2 with _ | ⟨q, Q3⟩
            · exact absurd rfl hQne
            · rw [List.getLast?_cons_cons]
              exact hQlast
          · rw [List.nil_append]
            rw [show ([0] ++ Q2 : List Nat) = 0 :: Q2 from rfl] at hQpairs
            exact hQpairs
      · -- phase 2: parity forces the front to be the ghost endpoint `y`
        rcases P with _ | ⟨p0, P2⟩
        · cases hPh
        have hp0 : p0 = 0 := by
          injection hPh
        subst hp0
        have hdeg2 : degM (medges E) v + degM (mpairs (v :: rest)) v +
            degM (mpairs ((0 :: P2) ++ [y])) v = degM (medges T) v := by
          rw [← degM_add, ← degM_add, heq]
        have hPpar := degM_mpairs_parity v 0 (P2 ++ [y])
        have hPlast : ((0 : Nat) :: (P2 ++ [y])).getLast? = some y := by
          rw [show ((0 : Nat) :: (P2 ++ [y])) = ((0 :: P2) ++ [y]) from rfl]
          exact List.getLast?_concat _
        rw [hPlast] at hPpar
        have hPform : ((0 : Nat) :: P2) ++ [y] = 0 :: (P2 ++ [y]) := rfl
        have hvy : v = y := by
          by_contra hvy
          have he := heven v
          rw [← hdeg v] at he
          rw [if_neg (show ¬ (some v = some y) by simpa using hvy)] at hPpar
          rw [hPform] at hdeg2
          by_cases hvz : v = 0
          · rw [if_pos hvz] at hPpar
            have hlast2 : (some v = ((v :: rest).getLast?)) := by
              rw [hSlast, hvz]
            rw [if_pos hlast2] at hSpar
            omega
          · rw [if_neg hvz] at hPpar
            have hlast2 : ¬ (some v = ((v :: rest).getLast?)) := by
              rw [hSlast]
              simp
              exact hvz
            rw [if_neg hlast2] at hSpar
            omega
        subst hvy
        rcases rest with _ | ⟨r, rest2⟩
        · -- terminal pop: the stack bottom is 0, everything is consumed
          have hvz : v = 0 := by
            have h9 := hSlast
            simp at h9
            exact h9
          subst hvz
          have heq2 : medges E + mpairs (0 :: (P2 ++ [0])) = medges T := by
            rw [← heq, mpairs_single]
            abel
          have hE : E = [] := by
            apply terminal_empty g hconn E (0 :: (P2 ++ [0]))
            · rw [← hchar, heq2]
            · intro u hu
              rcases List.mem_cons.1 hu with h | h
              · rw [h]
                exact hv0
              · rcases List.mem_append.1 h with h2 | h2
                · exact hPexh u (List.mem_cons_of_mem _ h2)
                · rcases List.mem_singleton.1 h2
                  exact hv0
            · exact List.mem_cons_self ..
          refine ⟨[0], ?_, by simp, by simp, ?_, ?_⟩
          · rw [hierLoop_pop fuel E 0 [] (0 :: P2) hfilt, hierLoop_stack_nil]
          · intro h
            cases h
          · rw [show ((0 :: P2) ++ [0] : List Nat) = 0 :: (P2 ++ [0]) from rfl]
            rw [← heq2, hE, show medges [] = 0 from rfl, zero_add]
        · -- regular pop: finalize `v` and keep going with ghost `r`
          have hrec := hier_main g T hconn hchar hdeg heven fuel E (r :: rest2)
            ((0 :: P2) ++ [v])
            (by simp at hlen ⊢; omega)
            (by
              intro u hu
              rcases List.mem_append.1 hu with h | h
              · exact hPexh u h
              · rcases List.mem_singleton.1 h
                exact hv0)
            (by simp)
            (by rwa [List.getLast?_cons_cons] at hSlast)
            (Or.inr ⟨rfl, r, by
              rw [← heq, mpairs_cons₂]
              rw [mpairs_append_last ((0 :: P2) ++ [v]) v r (List.getLast?_concat _)]
              rw [show ((0 :: P2) ++ [v] : List Nat) = 0 :: P2 ++ [v] from rfl]
              simp only [← Multiset.singleton_add]
              abel⟩)
          obtain ⟨Q2, hQeq, hQne, hQlast, -, hQpairs⟩ := hrec
          refine ⟨v :: Q2, ?_, by simp, ?_, ?_, ?_⟩
          · rw [hierLoop_pop fuel E v (r :: rest2) (0 :: P2) hfilt, hQeq,
              List.append_assoc]
            rfl
          · rcases Q2 with _ | ⟨q, Q3⟩
            · exact absurd rfl hQne
            · rw [List.getLast?_cons_cons]
              exact hQlast
          · intro h
            cases h
          · rw [show ((0 :: P2) ++ v :: Q2 : List Nat) = ((0 :: P2) ++ [v]) ++ Q2 by
              rw [List.append_assoc]
              rfl]
            exact hQpairs
    · -- push: consume the first incident edge and advance the stack front
      have hchosen_mem : chosen ∈
          E.filter (fun e => decide (e.1 = v) || decide (e.2 = v)) := by
        rw [hfilt]
        exact List.mem_cons_self ..
      have h3 := List.mem_filter.1 hchosen_mem
      have hvc : chosen.1 = v ∨ chosen.2 = v := by
        have := h3.2
        simpa using this
      have hget := findIdx_beq_get E chosen h3.1
      set j := E.findIdx fun e => e == chosen with hj
      set E2 := swapRemove E j with hE2
      have hperm : E.Perm (chosen :: E2) := swapRemove_perm E j chosen hget
      have hmE : medges E = norm2 chosen ::ₘ medges E2 := by
        rw [medges, medges, Multiset.coe_eq_coe.2 (hperm.map norm2), List.map_cons]
        rfl
      set nxt := if chosen.1 = v then chosen.2 else chosen.1 with hnxt
      have hnorm_next : norm2 (nxt, v) = norm2 chosen := by
        rw [hnxt]
        by_cases hc1 : chosen.1 = v
        · rw [if_pos hc1, norm2_comm, ← hc1, Prod.mk.eta]
        · have hc2 : chosen.2 = v := by tauto
          rw [if_neg hc1, ← hc2, Prod.mk.eta]
      have hlen2 : E2.length + 1 = E.length := swapRemove_length E j chosen hget
      have hrec := hier_main g T hconn hchar hdeg heven fuel E2 (nxt :: v :: rest) P
        (by simp at hlen ⊢; omega)
        (by
          intro u hu
          have h4 := hPexh u hu
          rw [hmE] at h4
          rw [show norm2 chosen = norm2 (chosen.1, chosen.2) from rfl] at h4
          rw [degM_norm2_cons] at h4
          omega)
        (by simp)
        (by rwa [List.getLast?_cons_cons])
        (by
          rcases hphase with ⟨hP, heq⟩ | ⟨hPh, y, heq⟩
          · refine Or.inl ⟨hP, ?_⟩
            rw [← heq, mpairs_cons₂, hnorm_next, hmE]
            simp only [← Multiset.singleton_add]
            abel
          · refine Or.inr ⟨hPh, y, ?_⟩
            rw [← heq, mpairs_cons₂, hnorm_next, hmE]
            simp only [← Multiset.singleton_add]
            abel)
      obtain ⟨Q2, hQeq, hQne, hQlast, hQhead, hQpairs⟩ := hrec
      refine ⟨Q2, ?_, hQne, hQlast, hQhead, hQpairs⟩
      rw [hierLoop_push fuel E v rest P chosen tl hfilt]
      rw [← hj, ← hE2, ← hnxt]
      exact hQeq

/-- Two parallel self-loops at node 0: the edge collection of `find_cycle`
conflates them into one. -/
def gLoops : Graph := ⟨[(0, 0, 1), (0, 0, 1)]⟩

/-- CX3 counterexample: `gLoops` is connected with all degrees even, yet
`find_cycle` returns `[0, 0]`, traversing only one of the two (identical)
self-loop edges — the claimed every-edge-exactly-once circuit of length
`edge count + 1` fails, because the collection phase drops a duplicate
self-loop (its reversed pair equals itself, so the dedup check eats it). -/
theorem find_cycle_counterexample :
    Connected gLoops ∧ (∀ v, gLoops.degree v % 2 = 0) ∧
    find_cycle gLoops = [0, 0] ∧ gLoops.edges.length = 2 ∧
    (find_cycle gLoops).length ≠ gLoops.edges.length + 1 := by
  refine ⟨?_, ?_, by decide, by decide, by decide⟩
  · intro v hv
    have h1 : gLoops.nodeCount = 1 := by decide
    rw [h1] at hv
    interval_cases v
    exact reachable_refl _ _
  · intro v
    rcases v with _ | v2
    · decide
    · have h2 : gLoops.degree (v2 + 1) = 0 := by
        rw [show gLoops = (⟨[(0, 0, 1), (0, 0, 1)]⟩ : Graph) from rfl, degree_mk]
        have h3 : (0 : Nat) ≠ v2 + 1 := by omega
        simp [h3]
      rw [h2]

/-- C3 (corrected by a no-self-loop hypothesis): on a connected graph with
all degrees even and no self-loops, `find_cycle` returns a closed walk from
node 0 whose consecutive pairs consume every edge exactly once (as a
multiset of unordered pairs, with multiplicity) and whose node count is the
edge count plus one. -/
theorem find_cycle_amended (g : Graph) (hconn : Connected g)
    (hns : ∀ e ∈ g.edges, e.1 ≠ e.2.1) (heven : ∀ v, g.degree v % 2 = 0) :
    (find_cycle g).head? = some 0 ∧ (find_cycle g).getLast? = some 0 ∧
    mpairs (find_cycle g) = ↑(g.edges.map fun e => norm2 (e.1, e.2.1)) ∧
    (find_cycle g).length = g.edges.length + 1 := by
  set T := collectEdges g with hT
  have hchar := medges_collectEdges g hns
  have hdeg := degM_medges_degree g hns
  obtain ⟨Q, hQeq, hQne, hQlast, hQhead, hQpairs⟩ :=
    hier_main g T hconn hchar hdeg heven (2 * T.length + 1) T [0] []
      (by simp)
      (by intro u hu; cases hu)
      (by simp)
      (by simp)
      (Or.inl ⟨rfl, by rw [mpairs_single, add_zero]⟩)
  rw [List.nil_append] at hQeq hQpairs
  have hfc : find_cycle g = Q := by
    rw [find_cycle]
    exact hQeq
  refine ⟨?_, ?_, ?_, ?_⟩
  · rw [hfc]
    exact hQhead rfl
  · rw [hfc]
    exact hQlast
  · rw [hfc, hQpairs]
    exact hchar
  · have hc1 : Multiset.card (mpairs Q) = (pairsOf Q).length := by
      rw [mpairs, Multiset.coe_card, List.length_map]
    have hc2 : Multiset.card (medges T) = T.length := by
      rw [medges, Multiset.coe_card, List.length_map]
    have hc3 : T.length = g.edges.length := by
      have h4 := congrArg Multiset.card (collectEdges_char g hns)
      rwa [Multiset.coe_card, Multiset.coe_card, List.length_map] at h4
    have hc4 := congrArg Multiset.card hQpairs
    rw [hc1, hc2] at hc4
    have hc5 := pairsOf_length Q hQne
    rw [hfc]
    omega

/-- The square road network of spec section 8. -/
def gSquare : Graph := ⟨[(0, 1, 10), (0, 3, 15), (1, 2, 10), (2, 3, 10)]⟩

/-- C3 witness: on the spec's square the amended theorem applies, and the
concrete circuit is `A-D-C-B-A`. -/
theorem find_cycle_amended_witness :
    find_cycle gSquare = [0, 3, 2, 1, 0] ∧
    ((find_cycle gSquare).head? = some 0 ∧
      (find_cycle gSquare).getLast? = some 0 ∧
      mpairs (find_cycle gSquare) =
        ↑(gSquare.edges.map fun e => norm2 (e.1, e.2.1)) ∧
      (find_cycle gSquare).length = gSquare.edges.length + 1) := by
  refine ⟨by decide, find_cycle_amended gSquare ?_ (by decide) ?_⟩
  · intro v hv
    have h1 : gSquare.nodeCount = 4 := by decide
    rw [h1] at hv
    interval_cases v
    · exact reachable_refl _ _
    · exact ⟨[(1, 10)], ⟨Or.inl (by decide), trivial⟩, rfl⟩
    · exact ⟨[(1, 10), (2, 10)],
        ⟨Or.inl (by decide), Or.inl (by decide), trivial⟩, rfl⟩
    · exact ⟨[(3, 15)], ⟨Or.inl (by decide), trivial⟩, rfl⟩
  · intro v
    by_cases hv : v < 4
    · interval_cases v <;> decide
    · have h2 : gSquare.degree v = 0 := by
        rw [show gSquare =
          (⟨[(0, 1, 10), (0, 3, 15), (1, 2, 10), (2, 3, 10)]⟩ : Graph) from rfl,
          degree_mk]
        have h3 : (0 : Nat) ≠ v := by omega
        have h4 : (1 : Nat) ≠ v := by omega
        have h5 : (2 : Nat) ≠ v := by omega
        have h6 : (3 : Nat) ≠ v := by omega
        simp [h3, h4, h5, h6]
      rw [h2]

end Pacsam
